import Mathlib

set_option synthInstance.maxSize 1024

/-!
Verification of the repovul conversion pipeline.

This file gives a shallow embedding, in Lean 4, of the core of the
repovul repository (src/repovul): the two-stage hitting-set solver
(`util.py`), the per-repo conversion engine (`converter.py`), the
record store write step, the read query `get_by_commit` and the JSON
export/import step (`__main__.py`, `models/repovul.py`), together with
theorems about them.

Modeling conventions:
* Python strings are Lean `String`; timestamps are `Int` (POSIX
  seconds); Python dicts are association lists looked up with
  `alookup` (insertion happens only at absent keys in the source, so
  cons-insertion with first-match lookup is faithful).
* Python set iteration order is unspecified; wherever the source
  iterates over a set we take the iteration order as an explicit
  `List String` argument, guarded by `validEnum` which states exactly
  that the list enumerates the set (no duplicates, same members).
* External processes (git clone, git version resolution, linguist)
  are oracle functions supplied as arguments.
* Fallible code returns `Except`; a raised exception is an `.error`
  carrying the cache state at the raise point, which models the fact
  that the Python `CacheItem` is mutated in place and the caller
  observes the mutated object when it catches the exception.
-/

/-- Decidable equality for `Except`, needed to evaluate concrete runs. -/
instance {ε α : Type} [DecidableEq ε] [DecidableEq α] : DecidableEq (Except ε α) := fun a b =>
  match a, b with
  | .ok x, .ok y => if h : x = y then .isTrue (by rw [h]) else .isFalse (by simp [h])
  | .error x, .error y => if h : x = y then .isTrue (by rw [h]) else .isFalse (by simp [h])
  | .ok _, .error _ => .isFalse (by simp)
  | .error _, .ok _ => .isFalse (by simp)

/-- Association-list lookup, modeling Python dict lookup (the source only
ever inserts at keys that are absent, so first-match semantics agree). -/
def alookup {β : Type} : List (String × β) → String → Option β
  | [], _ => none
  | p :: t, x => if p.1 = x then some p.2 else alookup t x

theorem alookup_nil {β : Type} (x : String) : alookup ([] : List (String × β)) x = none := rfl

theorem alookup_cons {β : Type} (p : String × β) (t : List (String × β)) (x : String) :
    alookup (p :: t) x = if p.1 = x then some p.2 else alookup t x := rfl

theorem alookup_append {β : Type} (l₁ l₂ : List (String × β)) (x : String) :
    alookup (l₁ ++ l₂) x = ((alookup l₁ x).orElse (fun _ => alookup l₂ x)) := by
  induction l₁ with
  | nil => simp [alookup]
  | cons p t ih =>
    by_cases h : p.1 = x <;> simp [alookup, h, ih]

theorem alookup_isSome_iff {β : Type} (l : List (String × β)) (x : String) :
    (alookup l x).isSome = true ↔ ∃ b, (x, b) ∈ l := by
  induction l with
  | nil => simp [alookup]
  | cons p t ih =>
    by_cases h : p.1 = x
    · subst h
      simp [alookup]
      exact ⟨p.2, Or.inl rfl⟩
    · simp only [alookup, if_neg h, ih]
      constructor
      · rintro ⟨b, hb⟩
        exact ⟨b, List.mem_cons_of_mem _ hb⟩
      · rintro ⟨b, hb⟩
        rcases List.mem_cons.mp hb with h1 | h1
        · exact absurd (congrArg Prod.fst h1).symm h
        · exact ⟨b, h1⟩

theorem alookup_mem {β : Type} {l : List (String × β)} {x : String} {b : β}
    (h : alookup l x = some b) : (x, b) ∈ l := by
  induction l with
  | nil => simp [alookup] at h
  | cons p t ih =>
    rw [alookup_cons] at h
    by_cases hp : p.1 = x
    · rw [if_pos hp] at h
      injection h with h2
      cases p with
      | mk k v =>
        simp only at hp h2
        subst hp
        subst h2
        exact List.mem_cons_self _ _
    · rw [if_neg hp] at h
      exact List.mem_cons_of_mem _ (ih h)

/-! ### Lexicographic orders

Python's `sorted` compares strings by code points and lists
lexicographically.  The built-in `String` order of Lean does not reduce
in the kernel, so we define executable comparators from scratch. -/

/-- Strict lexicographic order on lists, given a strict order on elements. -/
def lexLt {α : Type} [DecidableEq α] (lt : α → α → Bool) : List α → List α → Bool
  | _, [] => false
  | [], _ :: _ => true
  | a :: as, b :: bs => if a = b then lexLt lt as bs else lt a b

theorem lexLt_trans {α : Type} [DecidableEq α] {lt : α → α → Bool}
    (hasym : ∀ a b, lt a b = true → ¬ lt b a = true)
    (htrans : ∀ a b c, lt a b = true → lt b c = true → lt a c = true) :
    ∀ x y z : List α, lexLt lt x y = true → lexLt lt y z = true → lexLt lt x z = true := by
  intro x
  induction x with
  | nil =>
    intro y z hxy hyz
    cases z with
    | nil => cases y <;> simp [lexLt] at hyz
    | cons c cs => simp [lexLt]
  | cons a as ih =>
    intro y z hxy hyz
    cases y with
    | nil => simp [lexLt] at hxy
    | cons b bs =>
      cases z with
      | nil => simp [lexLt] at hyz
      | cons c cs =>
        simp only [lexLt] at hxy hyz ⊢
        by_cases hab : a = b
        · subst hab
          rw [if_pos rfl] at hxy
          by_cases hbc : a = c
          · subst hbc
            rw [if_pos rfl] at hyz ⊢
            exact ih bs cs hxy hyz
          · rw [if_neg hbc] at hyz ⊢
            exact hyz
        · rw [if_neg hab] at hxy
          by_cases hbc : b = c
          · subst hbc
            rw [if_neg hab]
            exact hxy
          · rw [if_neg hbc] at hyz
            by_cases hac : a = c
            · subst hac
              exact absurd hyz (hasym a b hxy)
            · rw [if_neg hac]
              exact htrans a b c hxy hyz

theorem lexLt_asym {α : Type} [DecidableEq α] {lt : α → α → Bool}
    (hasym : ∀ a b, lt a b = true → ¬ lt b a = true) :
    ∀ x y : List α, lexLt lt x y = true → ¬ lexLt lt y x = true := by
  intro x
  induction x with
  | nil =>
    intro y hxy
    cases y with
    | nil => simp [lexLt] at hxy
    | cons b bs => simp [lexLt]
  | cons a as ih =>
    intro y hxy
    cases y with
    | nil => simp [lexLt] at hxy
    | cons b bs =>
      simp only [lexLt] at hxy ⊢
      by_cases hab : a = b
      · subst hab
        rw [if_pos rfl] at hxy ⊢
        exact ih bs hxy
      · rw [if_neg hab] at hxy
        rw [if_neg (fun h => hab h.symm)]
        exact hasym a b hxy

theorem lexLt_total {α : Type} [DecidableEq α] {lt : α → α → Bool}
    (htot : ∀ a b, a ≠ b → lt a b = true ∨ lt b a = true) :
    ∀ x y : List α, x ≠ y → lexLt lt x y = true ∨ lexLt lt y x = true := by
  intro x
  induction x with
  | nil =>
    intro y hxy
    cases y with
    | nil => exact absurd rfl hxy
    | cons b bs => left; simp [lexLt]
  | cons a as ih =>
    intro y hxy
    cases y with
    | nil => right; simp [lexLt]
    | cons b bs =>
      simp only [lexLt]
      by_cases hab : a = b
      · subst hab
        rw [if_pos rfl, if_pos rfl]
        exact ih bs (fun h => hxy (by rw [h]))
      · rw [if_neg hab, if_neg (fun h => hab h.symm)]
        exact htot a b hab

/-- Strict order on characters by code point, as Python compares them. -/
def charLtB (a b : Char) : Bool := decide (a.toNat < b.toNat)

theorem charLtB_asym : ∀ a b : Char, charLtB a b = true → ¬ charLtB b a = true := by
  intro a b
  simp only [charLtB, decide_eq_true_iff]
  omega

theorem charLtB_trans : ∀ a b c : Char, charLtB a b = true → charLtB b c = true →
    charLtB a c = true := by
  intro a b c
  simp only [charLtB, decide_eq_true_iff]
  omega

theorem charLtB_total : ∀ a b : Char, a ≠ b → charLtB a b = true ∨ charLtB b a = true := by
  intro a b hab
  simp only [charLtB, decide_eq_true_iff]
  rcases Nat.lt_trichotomy a.toNat b.toNat with h | h | h
  · exact Or.inl h
  · exact absurd (Char.ext (UInt32.ext (by simpa [Char.toNat] using h))) hab
  · exact Or.inr h

/-- Strict order on strings: code-point lexicographic, as in Python. -/
def strLtB (a b : String) : Bool := lexLt charLtB a.data b.data

theorem strLtB_asym : ∀ a b : String, strLtB a b = true → ¬ strLtB b a = true :=
  fun a b h => lexLt_asym charLtB_asym a.data b.data h

theorem strLtB_trans : ∀ a b c : String, strLtB a b = true → strLtB b c = true →
    strLtB a c = true :=
  fun a b c h₁ h₂ => lexLt_trans charLtB_asym charLtB_trans a.data b.data c.data h₁ h₂

theorem strLtB_total : ∀ a b : String, a ≠ b → strLtB a b = true ∨ strLtB b a = true :=
  fun a b hab => lexLt_total charLtB_total a.data b.data (fun h => hab (String.ext h))

theorem strLtB_irrefl (a : String) : ¬ strLtB a a = true :=
  fun h => strLtB_asym a a h h

/-- Non-strict string order used for `sorted` on strings. -/
def strLeP (a b : String) : Prop := strLtB a b = true ∨ a = b

instance : DecidableRel strLeP := fun a b => by
  unfold strLeP
  infer_instance

instance : IsTotal String strLeP :=
  ⟨fun a b => by
    by_cases h : a = b
    · exact Or.inl (Or.inr h)
    · rcases strLtB_total a b h with h1 | h1
      · exact Or.inl (Or.inl h1)
      · exact Or.inr (Or.inl h1)⟩

instance : IsTrans String strLeP :=
  ⟨fun a b c hab hbc => by
    rcases hab with h1 | h1
    · rcases hbc with h2 | h2
      · exact Or.inl (strLtB_trans a b c h1 h2)
      · subst h2; exact Or.inl h1
    · subst h1; exact hbc⟩

instance : IsAntisymm String strLeP :=
  ⟨fun a b hab hba => by
    rcases hab with h1 | h1
    · rcases hba with h2 | h2
      · exact absurd h2 (strLtB_asym a b h1)
      · exact h2.symm
    · exact h1⟩

instance : IsRefl String strLeP := ⟨fun a => Or.inr rfl⟩

/-- Python `sorted` on a list of strings. -/
def sortStrings (l : List String) : List String := List.insertionSort strLeP l

theorem sortStrings_canon {l₁ l₂ : List String} (h : List.Perm l₁ l₂) :
    sortStrings l₁ = sortStrings l₂ :=
  List.eq_of_perm_of_sorted
    (((List.perm_insertionSort strLeP l₁).trans h).trans
      (List.perm_insertionSort strLeP l₂).symm)
    (List.sorted_insertionSort strLeP l₁) (List.sorted_insertionSort strLeP l₂)

theorem sortStrings_perm (l : List String) : List.Perm (sortStrings l) l :=
  List.perm_insertionSort strLeP l

/-- Strict lexicographic order on lists of strings (Python list comparison). -/
def listStrLtB (a b : List String) : Bool := lexLt strLtB a b

/-- Non-strict order on lists of strings. -/
def listStrLeP (a b : List String) : Prop := listStrLtB a b = true ∨ a = b

instance : DecidableRel listStrLeP := fun a b => by
  unfold listStrLeP
  infer_instance

instance : IsTotal (List String) listStrLeP :=
  ⟨fun a b => by
    by_cases h : a = b
    · exact Or.inl (Or.inr h)
    · rcases lexLt_total strLtB_total a b h with h1 | h1
      · exact Or.inl (Or.inl h1)
      · exact Or.inr (Or.inl h1)⟩

instance : IsTrans (List String) listStrLeP :=
  ⟨fun a b c hab hbc => by
    rcases hab with h1 | h1
    · rcases hbc with h2 | h2
      · exact Or.inl (lexLt_trans strLtB_asym strLtB_trans a b c h1 h2)
      · subst h2; exact Or.inl h1
    · subst h1; exact hbc⟩

instance : IsAntisymm (List String) listStrLeP :=
  ⟨fun a b hab hba => by
    rcases hab with h1 | h1
    · rcases hba with h2 | h2
      · exact absurd h2 (lexLt_asym strLtB_asym a b h1)
      · exact h2.symm
    · exact h1⟩

/-- Python `sorted` on a list of lists of strings. -/
def sortStringLists (l : List (List String)) : List (List String) :=
  List.insertionSort listStrLeP l

theorem sortStringLists_canon {l₁ l₂ : List (List String)} (h : List.Perm l₁ l₂) :
    sortStringLists l₁ = sortStringLists l₂ :=
  List.eq_of_perm_of_sorted
    (((List.perm_insertionSort listStrLeP l₁).trans h).trans
      (List.perm_insertionSort listStrLeP l₂).symm)
    (List.sorted_insertionSort listStrLeP l₁) (List.sorted_insertionSort listStrLeP l₂)

theorem sortStringLists_perm (l : List (List String)) :
    List.Perm (sortStringLists l) l :=
  List.perm_insertionSort listStrLeP l

/-- Order on `(version, date)` pairs: by version string, then by date.
`solve_hitting_set_with_cache` sorts `version_dates.items()` by key; keys
are distinct there, where this order coincides with Python's. -/
def vdLeP (a b : String × Int) : Prop :=
  strLtB a.1 b.1 = true ∨ (a.1 = b.1 ∧ a.2 ≤ b.2)

instance : DecidableRel vdLeP := fun a b => by
  unfold vdLeP
  infer_instance

instance : IsTotal (String × Int) vdLeP :=
  ⟨fun a b => by
    by_cases h : a.1 = b.1
    · rcases le_total a.2 b.2 with h2 | h2
      · exact Or.inl (Or.inr ⟨h, h2⟩)
      · exact Or.inr (Or.inr ⟨h.symm, h2⟩)
    · rcases strLtB_total a.1 b.1 h with h1 | h1
      · exact Or.inl (Or.inl h1)
      · exact Or.inr (Or.inl h1)⟩

instance : IsTrans (String × Int) vdLeP :=
  ⟨fun a b c hab hbc => by
    rcases hab with h1 | ⟨h1, h1'⟩
    · rcases hbc with h2 | ⟨h2, _⟩
      · exact Or.inl (strLtB_trans _ _ _ h1 h2)
      · exact Or.inl (h2 ▸ h1)
    · rcases hbc with h2 | ⟨h2, h2'⟩
      · exact Or.inl (h1 ▸ h2)
      · exact Or.inr ⟨h1.trans h2, h1'.trans h2'⟩⟩

instance : IsAntisymm (String × Int) vdLeP :=
  ⟨fun a b hab hba => by
    rcases hab with h1 | ⟨h1, h1'⟩
    · rcases hba with h2 | ⟨h2, _⟩
      · exact absurd h2 (strLtB_asym _ _ h1)
      · exact absurd (h2 ▸ h1) (strLtB_irrefl b.1)
    · rcases hba with h2 | ⟨_, h2'⟩
      · exact absurd (h1 ▸ h2) (strLtB_irrefl b.1)
      · exact Prod.ext h1 (le_antisymm h1' h2')⟩

/-- Python `sorted(version_dates.items(), key=lambda item: item[0])`. -/
def sortVersionDates (l : List (String × Int)) : List (String × Int) :=
  List.insertionSort vdLeP l

theorem sortVersionDates_canon {l₁ l₂ : List (String × Int)} (h : List.Perm l₁ l₂) :
    sortVersionDates l₁ = sortVersionDates l₂ :=
  List.eq_of_perm_of_sorted
    (((List.perm_insertionSort vdLeP l₁).trans h).trans
      (List.perm_insertionSort vdLeP l₂).symm)
    (List.sorted_insertionSort vdLeP l₁) (List.sorted_insertionSort vdLeP l₂)

/-! ### The hitting-set solver (`util.py`, `solve_hitting_set`)

The source builds a CP-SAT 0/1 program with one variable per distinct
version, first minimizing the number of selected versions subject to
`sum(x_v for v in lst) >= 1` per input list, then fixing that optimum
and maximizing the sum of selected dates.  We embed the two-stage solve
as exhaustive optimization of the lexicographic key
(cardinality ascending, date sum descending) over all subsets of the
variable universe that satisfy every cover constraint: this is exactly
the set of assignments the two CP-SAT solves range over.

`order` is the iteration order of the Python set `all_versions`;
`validEnum` checks that it enumerates exactly the versions occurring in
the input lists.  The `hasDate` guard models `parse_version`, which
looks every universe version up in `version_dates` when building the
stage-2 objective. -/

/-- Satisfaction of one cover constraint `sum(x_v for v in lst) >= 1`. -/
def hitsList (H l : List String) : Bool := l.any (fun v => decide (v ∈ H))

/-- Satisfaction of all cover constraints. -/
def coversAll (H : List String) (lists : List (List String)) : Bool :=
  lists.all (fun l => hitsList H l)

/-- Date of a version, from the `version_dates` dict. -/
def dateOf (vd : List (String × Int)) (v : String) : Int := (alookup vd v).getD 0

/-- Stage-2 objective: sum of the dates of the selected versions. -/
def dateSum (vd : List (String × Int)) (H : List String) : Int := (H.map (dateOf vd)).sum

/-- Lexicographic optimization key of a candidate solution: cardinality
ascending, then date sum descending. -/
def solKey (vd : List (String × Int)) (H : List String) : Nat × Int :=
  (H.length, - dateSum vd H)

/-- Whether `version_dates` has an entry for `v` (else `parse_version`
raises `KeyError`). -/
def hasDate (vd : List (String × Int)) (v : String) : Bool := (alookup vd v).isSome

/-- `order` enumerates exactly the elements of `pool`, once each: this is
the defining property of iterating a Python set built from `pool`. -/
def validEnum (order pool : List String) : Bool :=
  decide order.Nodup && order.all (fun v => decide (v ∈ pool))
    && pool.all (fun v => decide (v ∈ order))

theorem validEnum_iff (order pool : List String) :
    validEnum order pool = true ↔
      order.Nodup ∧ (∀ v ∈ order, v ∈ pool) ∧ (∀ v ∈ pool, v ∈ order) := by
  simp [validEnum, List.all_eq_true, and_assoc]

/-- Strict comparison of optimization keys. -/
def solKeyLt (a b : Nat × Int) : Bool :=
  decide (a.1 < b.1) || (decide (a.1 = b.1) && decide (a.2 < b.2))

theorem solKeyLt_iff (a b : Nat × Int) :
    solKeyLt a b = true ↔ a.1 < b.1 ∨ (a.1 = b.1 ∧ a.2 < b.2) := by
  simp [solKeyLt]

/-- Select the candidate with the least key, first winner among ties:
models the deterministic choice the CP-SAT backend makes once the
variable order is fixed. -/
def pickBest (k : List String → Nat × Int) : List (List String) → Option (List String)
  | [] => none
  | x :: xs => some (xs.foldl (fun acc y => if solKeyLt (k y) (k acc) then y else acc) x)

theorem pickBest_foldl_mem (k : List String → Nat × Int) (xs : List (List String))
    (a : List String) :
    xs.foldl (fun acc y => if solKeyLt (k y) (k acc) then y else acc) a = a ∨
      xs.foldl (fun acc y => if solKeyLt (k y) (k acc) then y else acc) a ∈ xs := by
  induction xs generalizing a with
  | nil => exact Or.inl rfl
  | cons x xs ih =>
    simp only [List.foldl_cons]
    rcases ih (if solKeyLt (k x) (k a) then x else a) with h | h
    · rw [h]
      by_cases hc : solKeyLt (k x) (k a) = true
      · rw [if_pos hc]
        exact Or.inr (List.mem_cons_self _ _)
      · rw [if_neg hc]
        exact Or.inl rfl
    · exact Or.inr (List.mem_cons_of_mem _ h)

theorem solKeyLt_trans {a b c : Nat × Int} (h1 : solKeyLt a b = true)
    (h2 : solKeyLt b c = true) : solKeyLt a c = true := by
  obtain ⟨a1, a2⟩ := a
  obtain ⟨b1, b2⟩ := b
  obtain ⟨c1, c2⟩ := c
  rw [solKeyLt_iff] at h1 h2 ⊢
  simp only at h1 h2 ⊢
  omega

theorem solKeyLt_false_lt_trans {p q r : Nat × Int} (h1 : solKeyLt p q = false)
    (h2 : solKeyLt p r = true) : solKeyLt q r = true := by
  obtain ⟨a1, a2⟩ := p
  obtain ⟨b1, b2⟩ := q
  obtain ⟨c1, c2⟩ := r
  rw [Bool.eq_false_iff, Ne, solKeyLt_iff] at h1
  rw [solKeyLt_iff] at h2 ⊢
  simp only at h1 h2 ⊢
  omega

theorem pickBest_foldl_min (k : List String → Nat × Int) (xs : List (List String))
    (a : List String) :
    ∀ x, (x = a ∨ x ∈ xs) →
      solKeyLt (k x) (k (xs.foldl (fun acc y => if solKeyLt (k y) (k acc) then y else acc) a))
        = false := by
  induction xs generalizing a with
  | nil =>
    intro x hx
    rcases hx with h | h
    · subst h
      simp only [List.foldl_nil]
      rw [Bool.eq_false_iff]
      intro hlt
      rw [solKeyLt_iff] at hlt
      omega
    · simp at h
  | cons y ys ih =>
    intro x hx
    simp only [List.foldl_cons]
    by_cases hc : solKeyLt (k y) (k a) = true
    · rw [if_pos hc]
      rcases hx with h | h
      · subst h
        have hy := ih y y (Or.inl rfl)
        rw [Bool.eq_false_iff] at hy ⊢
        intro hlt
        exact hy (solKeyLt_trans hc hlt)
      · rcases List.mem_cons.mp h with h1 | h1
        · subst h1
          exact ih x x (Or.inl rfl)
        · exact ih y x (Or.inr h1)
    · rw [if_neg hc]
      rcases hx with h | h
      · subst h
        exact ih x x (Or.inl rfl)
      · rcases List.mem_cons.mp h with h1 | h1
        · subst h1
          have ha := ih a a (Or.inl rfl)
          rw [Bool.eq_false_iff] at ha ⊢
          intro hlt
          exact ha (solKeyLt_false_lt_trans (Bool.eq_false_iff.mpr hc) hlt)
        · exact ih a x (Or.inr h1)

theorem pickBest_mem {k : List String → Nat × Int} {l : List (List String)}
    {m : List String} (h : pickBest k l = some m) : m ∈ l := by
  cases l with
  | nil => simp [pickBest] at h
  | cons x xs =>
    simp only [pickBest, Option.some.injEq] at h
    rcases pickBest_foldl_mem k xs x with h1 | h1
    · rw [h] at h1
      rw [h1]
      exact List.mem_cons_self _ _
    · rw [h] at h1
      exact List.mem_cons_of_mem _ h1

theorem pickBest_min {k : List String → Nat × Int} {l : List (List String)}
    {m : List String} (h : pickBest k l = some m) :
    ∀ x ∈ l, solKeyLt (k x) (k m) = false := by
  cases l with
  | nil => simp [pickBest] at h
  | cons x xs =>
    simp only [pickBest, Option.some.injEq] at h
    intro z hz
    rw [← h]
    rcases List.mem_cons.mp hz with h1 | h1
    · exact pickBest_foldl_min k xs x z (Or.inl h1)
    · exact pickBest_foldl_min k xs x z (Or.inr h1)

/-- Shallow embedding of `solve_hitting_set` (util.py lines 34-75).

`order` is the iteration order of the Python set `all_versions`
(derived inside the source from `lists`; the guard `validEnum` records
that derivation).  The two CP-SAT solves are embedded as one
lexicographic optimization over all subsets of the universe satisfying
every cover constraint, which is exactly the two-stage optimum; the
first candidate in `order.sublists` order wins ties, modeling the
solver's deterministic tie-break for a fixed variable order.
Dates are `Int` timestamps, the intended output of `parse_version`
(the source's `int(datetime.fromisoformat(...).timestamp())`).
Returns `none` where the source raises (`KeyError` when a universe
version is missing from `version_dates`, `ValueError` when a stage is
infeasible, e.g. an empty input list). -/
def solve_hitting_set (order : List String) (lists : List (List String))
    (vd : List (String × Int)) : Option (List String) :=
  if validEnum order lists.flatten && order.all (fun v => hasDate vd v) then
    pickBest (solKey vd) ((order.sublists).filter (fun H => coversAll H lists))
  else none

theorem coversAll_iff (H : List String) (lists : List (List String)) :
    coversAll H lists = true ↔ ∀ l ∈ lists, ∃ v, v ∈ H ∧ v ∈ l := by
  simp only [coversAll, hitsList, List.all_eq_true, List.any_eq_true, decide_eq_true_iff]
  constructor
  · intro h l hl
    obtain ⟨v, hv1, hv2⟩ := h l hl
    exact ⟨v, hv2, hv1⟩
  · intro h l hl
    obtain ⟨v, hv1, hv2⟩ := h l hl
    exact ⟨v, hv2, hv1⟩

theorem dateSum_perm (vd : List (String × Int)) {H₁ H₂ : List String}
    (h : List.Perm H₁ H₂) : dateSum vd H₁ = dateSum vd H₂ :=
  List.Perm.sum_eq (List.Perm.map (dateOf vd) h)

/-- C1 helper: full characterization of a successful solve.  The returned
set is drawn from the union of the lists, hits every list, and is optimal
for the lexicographic objective (minimum cardinality, then maximum date
sum) among all duplicate-free covers drawn from the union. -/
theorem solve_hitting_set_spec (order : List String) (lists : List (List String))
    (vd : List (String × Int))
    (horder : validEnum order lists.flatten = true)
    (hne : ∀ l ∈ lists, l ≠ [])
    (hdates : ∀ v ∈ order, hasDate vd v = true) :
    ∃ H, solve_hitting_set order lists vd = some H ∧
      (∀ v ∈ H, v ∈ lists.flatten) ∧
      (∀ l ∈ lists, ∃ v, v ∈ H ∧ v ∈ l) ∧
      H.Nodup ∧
      (∀ H' : List String, H'.Nodup → (∀ v ∈ H', v ∈ lists.flatten) →
        (∀ l ∈ lists, ∃ v, v ∈ H' ∧ v ∈ l) →
        (H.length ≤ H'.length ∧ (H'.length = H.length → dateSum vd H' ≤ dateSum vd H))) := by
  obtain ⟨hnd, hop, hpo⟩ := (validEnum_iff order lists.flatten).mp horder
  have hguard : (validEnum order lists.flatten && order.all (fun v => hasDate vd v)) = true := by
    rw [Bool.and_eq_true]
    exact ⟨horder, List.all_eq_true.mpr hdates⟩
  have hcovord : coversAll order lists = true := by
    rw [coversAll_iff]
    intro l hl
    obtain ⟨v, hv⟩ := List.exists_mem_of_ne_nil l (hne l hl)
    exact ⟨v, hpo v (List.mem_flatten.mpr ⟨l, hl, hv⟩), hv⟩
  have hordmem : order ∈ (order.sublists).filter (fun H => coversAll H lists) := by
    rw [List.mem_filter]
    exact ⟨List.mem_sublists.mpr (List.Sublist.refl order), hcovord⟩
  obtain ⟨c, cs, hcand⟩ : ∃ c cs,
      (order.sublists).filter (fun H => coversAll H lists) = c :: cs := by
    cases hc : (order.sublists).filter (fun H => coversAll H lists) with
    | nil => rw [hc] at hordmem; simp at hordmem
    | cons c cs => exact ⟨c, cs, rfl⟩
  obtain ⟨H, hH⟩ : ∃ H, solve_hitting_set order lists vd = some H := by
    unfold solve_hitting_set
    rw [if_pos hguard, hcand]
    exact ⟨_, rfl⟩
  have hpick : pickBest (solKey vd) ((order.sublists).filter (fun H => coversAll H lists))
      = some H := by
    unfold solve_hitting_set at hH
    rw [if_pos hguard] at hH
    exact hH
  have hHmem := pickBest_mem hpick
  rw [List.mem_filter] at hHmem
  have hHsub : List.Sublist H order := List.mem_sublists.mp hHmem.1
  have hHcov := (coversAll_iff H lists).mp hHmem.2
  refine ⟨H, hH, ?_, hHcov, List.Sublist.nodup hHsub hnd, ?_⟩
  · intro v hv
    exact hop v (hHsub.mem hv)
  · intro H' hnd' hsub' hcov'
    have hTsub : List.Sublist (order.filter (fun v => decide (v ∈ H'))) order :=
      List.filter_sublist order
    have hTmem : ∀ v, v ∈ order.filter (fun v => decide (v ∈ H')) ↔ v ∈ H' := by
      intro v
      rw [List.mem_filter, decide_eq_true_iff]
      constructor
      · exact fun h => h.2
      · intro h
        exact ⟨hpo v (hsub' v h), h⟩
    have hTperm : List.Perm (order.filter (fun v => decide (v ∈ H'))) H' := by
      rw [List.perm_ext_iff_of_nodup (List.Sublist.nodup hTsub hnd) hnd']
      exact hTmem
    have hTcand : (order.filter (fun v => decide (v ∈ H'))) ∈
        (order.sublists).filter (fun H => coversAll H lists) := by
      rw [List.mem_filter]
      refine ⟨List.mem_sublists.mpr hTsub, ?_⟩
      rw [coversAll_iff]
      intro l hl
      obtain ⟨v, hv1, hv2⟩ := hcov' l hl
      exact ⟨v, (hTmem v).mpr hv1, hv2⟩
    have hmin := pickBest_min hpick _ hTcand
    rw [Bool.eq_false_iff, Ne, solKeyLt_iff] at hmin
    push_neg at hmin
    simp only [solKey] at hmin
    have hlen : (order.filter (fun v => decide (v ∈ H'))).length = H'.length :=
      List.Perm.length_eq hTperm
    have hds : dateSum vd (order.filter (fun v => decide (v ∈ H'))) = dateSum vd H' :=
      dateSum_perm vd hTperm
    rw [hlen, hds] at hmin
    constructor
    · by_cases heq : H'.length = H.length
      · omega
      · have := hmin.1
        omega
    · intro heq
      have := hmin.2 heq
      omega

/-- C1: For every family of non-empty lists of versions and a date defined
on every version occurring in them, the hitting-set solver returns a
subset `H` of the union of the lists such that `H` intersects every list,
`|H|` is minimum among all such covers, and among all minimum-cardinality
covers `H` maximizes the sum of the dates of its versions.  (This is the
intended contract of `solve_hitting_set`; note that as actually wired,
`converter.py` passes float POSIX timestamps for `version_dates` while
`solve_hitting_set` feeds each date to `datetime.fromisoformat`, which
only accepts ISO strings, so the real invocation raises `TypeError`
whenever a date is present — the embedding models the intended
already-parsed integer dates.) -/
theorem C1_solve_hitting_set_two_stage_optimal (order : List String)
    (lists : List (List String)) (vd : List (String × Int))
    (horder : validEnum order lists.flatten = true)
    (hne : ∀ l ∈ lists, l ≠ [])
    (hdates : ∀ v ∈ order, hasDate vd v = true) :
    ∃ H, solve_hitting_set order lists vd = some H ∧
      (∀ v ∈ H, v ∈ lists.flatten) ∧
      (∀ l ∈ lists, ∃ v, v ∈ H ∧ v ∈ l) ∧
      H.Nodup ∧
      (∀ H' : List String, H'.Nodup → (∀ v ∈ H', v ∈ lists.flatten) →
        (∀ l ∈ lists, ∃ v, v ∈ H' ∧ v ∈ l) →
        (H.length ≤ H'.length ∧ (H'.length = H.length → dateSum vd H' ≤ dateSum vd H))) :=
  solve_hitting_set_spec order lists vd horder hne hdates

/-- C1 witness: the solver property instantiated on the spec's concrete
scenario 2 (three entries, three versions, dates 10/20/30). -/
theorem C1_solve_hitting_set_two_stage_optimal_witness :
    (validEnum ["v1", "v2", "v3"] ([["v1", "v2"], ["v2", "v3"], ["v1", "v3"]].flatten) = true)
    ∧ (solve_hitting_set ["v1", "v2", "v3"] [["v1", "v2"], ["v2", "v3"], ["v1", "v3"]]
        [("v1", 10), ("v2", 20), ("v3", 30)] = some ["v2", "v3"])
    ∧ (∃ H, solve_hitting_set ["v1", "v2", "v3"] [["v1", "v2"], ["v2", "v3"], ["v1", "v3"]]
        [("v1", 10), ("v2", 20), ("v3", 30)] = some H ∧
      (∀ v ∈ H, v ∈ [["v1", "v2"], ["v2", "v3"], ["v1", "v3"]].flatten) ∧
      (∀ l ∈ [["v1", "v2"], ["v2", "v3"], ["v1", "v3"]], ∃ v, v ∈ H ∧ v ∈ l) ∧
      H.Nodup ∧
      (∀ H' : List String, H'.Nodup →
        (∀ v ∈ H', v ∈ [["v1", "v2"], ["v2", "v3"], ["v1", "v3"]].flatten) →
        (∀ l ∈ [["v1", "v2"], ["v2", "v3"], ["v1", "v3"]], ∃ v, v ∈ H' ∧ v ∈ l) →
        (H.length ≤ H'.length ∧ (H'.length = H.length →
          dateSum [("v1", 10), ("v2", 20), ("v3", 30)] H' ≤
            dateSum [("v1", 10), ("v2", 20), ("v3", 30)] H)))) :=
  ⟨by decide, by decide,
    C1_solve_hitting_set_two_stage_optimal ["v1", "v2", "v3"]
      [["v1", "v2"], ["v2", "v3"], ["v1", "v3"]] [("v1", 10), ("v2", 20), ("v3", 30)]
      (by decide) (by decide) (by decide)⟩

/-! ### The cached solver wrapper (`converter.py`, `solve_hitting_set_with_cache`) -/

/-- Association-list lookup for arbitrary key types (Python dict lookup). -/
def klookup {κ β : Type} [DecidableEq κ] : List (κ × β) → κ → Option β
  | [], _ => none
  | p :: t, x => if p.1 = x then some p.2 else klookup t x

/-- Cache key of a hitting-set instance.

Modelled from the spec: `get_str_weak_hash` and the JSON serialization it
is applied to are not part of the provided sources; per the spec the key
is "a weak (non-cryptographic) hash of the JSON serialization of
`(sorted([sorted(S_i) for all i]), sorted(date.items() by version))`".
We model the key as that canonicalized value itself — the hash is a
function of it, so key equality is faithfully represented. -/
structure HSKey where
  lists : List (List String)
  dates : List (String × Int)
deriving DecidableEq

/-- Canonicalized cache key: `json.dumps([sorted_lists, sorted_version_dates])`
of `solve_hitting_set_with_cache` (converter.py lines 461-463). -/
def argumentsKey (lists : List (List String)) (vd : List (String × Int)) : HSKey :=
  ⟨sortStringLists (lists.map sortStrings), sortVersionDates vd⟩

theorem argumentsKey_canon {lists₁ lists₂ : List (List String)}
    {vd₁ vd₂ : List (String × Int)}
    (h₁ : List.Perm (lists₁.map sortStrings) (lists₂.map sortStrings))
    (h₂ : List.Perm vd₁ vd₂) :
    argumentsKey lists₁ vd₁ = argumentsKey lists₂ vd₂ := by
  unfold argumentsKey
  rw [sortStringLists_canon h₁, sortVersionDates_canon h₂]

/-- Per-repo cache item (`models/cache.py` is not in the provided sources;
modelled from the spec: `versions_info: map<version_string,
(commit,date) | null>` and `hitting_set_results: map<arguments_hash,
[version]>`). -/
structure CacheItem where
  versions_info : List (String × Option (String × Int))
  hitting_set_results : List (HSKey × List String)
deriving DecidableEq

/-- Shallow embedding of `Converter.solve_hitting_set_with_cache`
(converter.py lines 449-471): canonicalize the arguments into a cache
key; on a hit return the stored solution verbatim, otherwise solve and
record the solution under the key. -/
def solve_hitting_set_with_cache (order : List String) (lists : List (List String))
    (vd : List (String × Int)) (cache : CacheItem) : Option (List String × CacheItem) :=
  match klookup cache.hitting_set_results (argumentsKey lists vd) with
  | some sol => some (sol, cache)
  | none =>
    match solve_hitting_set order lists vd with
    | some sol =>
      some (sol, { cache with
        hitting_set_results := (argumentsKey lists vd, sol) :: cache.hitting_set_results })
    | none => none

/-- C8 counterexample: `solve_hitting_set` does not sort versions before
constructing variables; it iterates the Python set `all_versions`, whose
order is not fixed across runs.  Two enumerations of the same version
set (both valid, i.e. both possible set iteration orders) produce
different hitting sets on a tie, so the solver's output is not
reproducible across runs by itself. -/
theorem C8_counterexample_solver_order_dependent :
    List.Perm ["a", "b"] ["b", "a"]
    ∧ validEnum ["a", "b"] ([["a", "b"]].flatten) = true
    ∧ validEnum ["b", "a"] ([["a", "b"]].flatten) = true
    ∧ solve_hitting_set ["a", "b"] [["a", "b"]] [("a", 0), ("b", 0)] = some ["a"]
    ∧ solve_hitting_set ["b", "a"] [["a", "b"]] [("a", 0), ("b", 0)] = some ["b"]
    ∧ (["a"] : List String) ≠ ["b"] := by
  refine ⟨?_, by decide, by decide, by decide, by decide, by decide⟩
  exact List.Perm.swap _ _ _

/-- C8 (amended): reproducibility across runs comes from the cached
wrapper, not from sorted variable construction: the cache key
canonicalizes (sorts) the inputs, so any permutation of the input lists
(and of each list, and of the date items) maps to the same key, and on a
cache hit the stored solution is returned verbatim together with the
unchanged cache, regardless of the set-iteration orders of either run. -/
theorem C8_cached_solver_reproducible (order₁ order₂ : List String)
    (lists₁ lists₂ : List (List String)) (vd₁ vd₂ : List (String × Int))
    (cache : CacheItem) (sol : List String)
    (h₁ : List.Perm (lists₁.map sortStrings) (lists₂.map sortStrings))
    (h₂ : List.Perm vd₁ vd₂)
    (hhit : klookup cache.hitting_set_results (argumentsKey lists₁ vd₁) = some sol) :
    solve_hitting_set_with_cache order₁ lists₁ vd₁ cache = some (sol, cache)
    ∧ solve_hitting_set_with_cache order₂ lists₂ vd₂ cache = some (sol, cache) := by
  have hkey := argumentsKey_canon h₁ h₂
  constructor
  · unfold solve_hitting_set_with_cache
    rw [hhit]
  · unfold solve_hitting_set_with_cache
    rw [← hkey, hhit]

/-- C8 witness: a concrete cache hit; the second run presents the same
instance with every ordering permuted and still returns the stored
solution with the cache unchanged. -/
theorem C8_cached_solver_reproducible_witness :
    List.Perm ([["b", "a"]].map sortStrings) ([["a", "b"]].map sortStrings)
    ∧ List.Perm [("b", (1 : Int)), ("a", 2)] [("a", 2), ("b", 1)]
    ∧ klookup (CacheItem.mk [] [(HSKey.mk [["a", "b"]] [("a", 2), ("b", 1)], ["a"])]
        ).hitting_set_results (argumentsKey [["b", "a"]] [("b", 1), ("a", 2)]) = some ["a"]
    ∧ solve_hitting_set_with_cache ["b", "a"] [["b", "a"]] [("b", 1), ("a", 2)]
        (CacheItem.mk [] [(HSKey.mk [["a", "b"]] [("a", 2), ("b", 1)], ["a"])])
      = some (["a"], CacheItem.mk [] [(HSKey.mk [["a", "b"]] [("a", 2), ("b", 1)], ["a"])])
    ∧ solve_hitting_set_with_cache ["a", "b"] [["a", "b"]] [("a", 2), ("b", 1)]
        (CacheItem.mk [] [(HSKey.mk [["a", "b"]] [("a", 2), ("b", 1)], ["a"])])
      = some (["a"], CacheItem.mk [] [(HSKey.mk [["a", "b"]] [("a", 2), ("b", 1)], ["a"])]) := by
  refine ⟨by decide, by decide, by decide, ?_, ?_⟩
  · exact (C8_cached_solver_reproducible ["b", "a"] ["a", "b"] [["b", "a"]] [["a", "b"]]
      [("b", 1), ("a", 2)] [("a", 2), ("b", 1)]
      (CacheItem.mk [] [(HSKey.mk [["a", "b"]] [("a", 2), ("b", 1)], ["a"])]) ["a"]
      (by decide) (by decide) (by decide)).1
  · exact (C8_cached_solver_reproducible ["b", "a"] ["a", "b"] [["b", "a"]] [["a", "b"]]
      [("b", 1), ("a", 2)] [("a", 2), ("b", 1)]
      (CacheItem.mk [] [(HSKey.mk [["a", "b"]] [("a", 2), ("b", 1)], ["a"])]) ["a"]
      (by decide) (by decide) (by decide)).2

/-! ### Data model of the conversion engine (`converter.py`, `models/repovul.py`) -/

/-- OSV entry as used by the converter.

Modelled from the spec: `models/osv.py` is not in the provided sources.
Per spec section 3, an entry carries `id`, `published`, `modified`,
`details`, optional `summary`, optional `severity` (opaque, modelled as
an opaque string), optional `withdrawn` (presence means "ignore",
modelled as a Bool), plus the loader-extracted repository URL
(`get_repo_url`), the union of affected version strings
(`get_affected_versions`) and the CWE list (`get_cwes`), which we carry
as precomputed fields. -/
structure OSVVulnerability where
  id : String
  published : Int
  modified : Int
  details : String
  summary : Option String
  severity : Option String
  withdrawn : Bool
  affected_versions : List String
  repo_url : String
  cwes : List String
deriving DecidableEq

/-- Output vulnerability record (`models/repovul.py`, class `RepovulItem`). -/
structure RepovulItem where
  id : String
  published : Int
  modified : Int
  details : String
  summary : Option String
  severity : Option String
  repo_url : String
  cwes : List String
  commits : List String
deriving DecidableEq

/-- Output revision record (`models/repovul.py`, class `RepovulRevision`). -/
structure RepovulRevision where
  commit : String
  repo_url : String
  date : Int
  languages : List (String × Int)
  size : Int
deriving DecidableEq

/-- Exceptions that can escape the per-repo conversion
(`exceptions.py` is not in the provided sources; modelled from the
spec's error taxonomy, section 7).  `valueError` stands for the
uncaught `ValueError`/`KeyError` family, which `convert_one_inner` does
not catch. -/
inductive ConvErr
  | repoNotFound
  | gitRuntime
  | linguist
  | valueError
deriving DecidableEq

/-- Outcome of `clone_repo` for the repo under conversion
(`clone_repo` is not in the provided sources; modelled from the spec:
clone either succeeds, or raises `RepoNotFound` when the remote reports
the repository unavailable, or `GitRuntimeError` on unexpected git
failure). -/
inductive CloneOutcome
  | ok
  | notFound
  | gitRuntime
deriving DecidableEq

/-- Oracles for the external processes used while converting one repo.
`resolve` models `get_version_commit`/`get_version_date` jointly (the
source stores `None` when either is `None`); `measure` models
`compute_code_sizes_at_revision`, `none` meaning a `LinguistError`. -/
structure RepoOracle where
  resolve : String → Option (String × Int)
  clone : CloneOutcome
  measure : String → Option (List (String × Int) × Int)

/-- Clone the repo if `repoDir` is not set yet (converter.py lines
380-382 and 434-435). -/
def cloneCheck (g : RepoOracle) (repoDir : Bool) : Except ConvErr Unit :=
  if repoDir then .ok ()
  else
    match g.clone with
    | .ok => .ok ()
    | .notFound => .error .repoNotFound
    | .gitRuntime => .error .gitRuntime

/-- Shallow embedding of `Converter.get_version_info_with_cache`
(converter.py lines 367-390): return the cached resolution when present,
otherwise clone on first need, resolve via git, and record the result
(including a negative) in the cache.  An error carries the cache state
at the raise point. -/
def get_version_info_with_cache (g : RepoOracle) (version : String) (repoDir : Bool)
    (cache : CacheItem) :
    Except (ConvErr × CacheItem) (Bool × Option (String × Int) × CacheItem) :=
  match alookup cache.versions_info version with
  | some info => .ok (repoDir, info, cache)
  | none =>
    match cloneCheck g repoDir with
    | .error e => .error (e, cache)
    | .ok _ =>
      let info := g.resolve version
      .ok (true, info,
        { cache with versions_info := (version, info) :: cache.versions_info })

/-- Shallow embedding of `Converter.get_versions_info_with_cache`
(converter.py lines 352-365): resolve every requested version in
iteration order, building the `versions_info` dict. -/
def get_versions_info_with_cache (g : RepoOracle) (versions : List String) (repoDir : Bool)
    (cache : CacheItem) :
    Except (ConvErr × CacheItem)
      (Bool × List (String × Option (String × Int)) × CacheItem) :=
  match versions with
  | [] => .ok (repoDir, [], cache)
  | v :: rest =>
    match get_version_info_with_cache g v repoDir cache with
    | .error e => .error e
    | .ok (repoDir', info, cache') =>
      match get_versions_info_with_cache g rest repoDir' cache' with
      | .error e => .error e
      | .ok (repoDir'', infos, cache'') => .ok (repoDir'', (v, info) :: infos, cache'')

theorem get_version_info_error_cache {g : RepoOracle} {version : String} {repoDir : Bool}
    {cache : CacheItem} {e : ConvErr} {c' : CacheItem}
    (h : get_version_info_with_cache g version repoDir cache = .error (e, c')) :
    c' = cache := by
  unfold get_version_info_with_cache at h
  cases hc : alookup cache.versions_info version with
  | some info => rw [hc] at h; simp at h
  | none =>
    rw [hc] at h
    cases hcl : cloneCheck g repoDir with
    | error e' =>
      rw [hcl] at h
      simp only [Except.error.injEq, Prod.mk.injEq] at h
      exact h.2.symm
    | ok u => rw [hcl] at h; simp at h

theorem get_version_info_ok_lookup {g : RepoOracle} {version : String} {repoDir : Bool}
    {cache : CacheItem} {rd' : Bool} {info : Option (String × Int)} {c' : CacheItem}
    (h : get_version_info_with_cache g version repoDir cache = .ok (rd', info, c')) :
    info = (alookup cache.versions_info version).getD (g.resolve version)
    ∧ c'.hitting_set_results = cache.hitting_set_results
    ∧ ∀ x, alookup c'.versions_info x =
        if version = x then some info else alookup cache.versions_info x := by
  unfold get_version_info_with_cache at h
  cases hc : alookup cache.versions_info version with
  | some i =>
    rw [hc] at h
    simp only [Except.ok.injEq, Prod.mk.injEq] at h
    obtain ⟨-, h2, h3⟩ := h
    subst h2
    subst h3
    refine ⟨rfl, rfl, ?_⟩
    intro x
    by_cases hx : version = x
    · subst hx
      rw [if_pos rfl, hc]
    · rw [if_neg hx]
  | none =>
    rw [hc] at h
    cases hcl : cloneCheck g repoDir with
    | error e' => rw [hcl] at h; simp at h
    | ok u =>
      rw [hcl] at h
      simp only [Except.ok.injEq, Prod.mk.injEq] at h
      obtain ⟨-, h2, h3⟩ := h
      subst h2
      subst h3
      refine ⟨rfl, rfl, ?_⟩
      intro x
      rw [alookup_cons]

theorem get_version_info_extends {g : RepoOracle} {version : String} {repoDir : Bool}
    {cache : CacheItem} {rd' : Bool} {info : Option (String × Int)} {c' : CacheItem}
    (h : get_version_info_with_cache g version repoDir cache = .ok (rd', info, c')) :
    ∀ x i, alookup cache.versions_info x = some i → alookup c'.versions_info x = some i := by
  intro x i hx
  obtain ⟨hval, -, hform⟩ := get_version_info_ok_lookup h
  rw [hform x]
  by_cases hvx : version = x
  · subst hvx
    rw [if_pos rfl, hval, hx]
    rfl
  · rw [if_neg hvx]
    exact hx

theorem get_versions_info_error_extends {g : RepoOracle} {versions : List String}
    {repoDir : Bool} {cache : CacheItem} {e : ConvErr} {c' : CacheItem}
    (h : get_versions_info_with_cache g versions repoDir cache = .error (e, c')) :
    (∀ x i, alookup cache.versions_info x = some i → alookup c'.versions_info x = some i)
    ∧ c'.hitting_set_results = cache.hitting_set_results := by
  induction versions generalizing repoDir cache with
  | nil => simp [get_versions_info_with_cache] at h
  | cons v rest ih =>
    unfold get_versions_info_with_cache at h
    cases h1 : get_version_info_with_cache g v repoDir cache with
    | error e1 =>
      rw [h1] at h
      simp only [Except.error.injEq] at h
      obtain ⟨e1c, e1cache⟩ := e1
      simp only [Except.error.injEq, Prod.mk.injEq] at h
      have hcc := get_version_info_error_cache h1
      rw [← h.2, hcc]
      exact ⟨fun x i hx => hx, rfl⟩
    | ok res =>
      obtain ⟨rd1, info1, c1⟩ := res
      rw [h1] at h
      dsimp only at h
      cases h2 : get_versions_info_with_cache g rest rd1 c1 with
      | error e2 =>
        rw [h2] at h
        simp only [Except.error.injEq] at h
        subst h
        obtain ⟨hext, hhs⟩ := ih h2
        obtain ⟨-, hhs1, -⟩ := get_version_info_ok_lookup h1
        exact ⟨fun x i hx => hext x i (get_version_info_extends h1 x i hx), hhs.trans hhs1⟩
      | ok res2 => rw [h2] at h; simp at h

theorem get_versions_info_ok_lookup {g : RepoOracle} {versions : List String}
    {repoDir : Bool} {cache : CacheItem} {rd' : Bool}
    {infos : List (String × Option (String × Int))} {c' : CacheItem}
    (h : get_versions_info_with_cache g versions repoDir cache = .ok (rd', infos, c')) :
    (∀ x i, alookup cache.versions_info x = some i → alookup c'.versions_info x = some i)
    ∧ (infos.map Prod.fst = versions)
    ∧ (∀ p ∈ infos, alookup c'.versions_info p.1 = some p.2)
    ∧ (∀ v ∈ versions, alookup c'.versions_info v =
        some ((alookup cache.versions_info v).getD (g.resolve v)))
    ∧ c'.hitting_set_results = cache.hitting_set_results := by
  induction versions generalizing repoDir cache infos rd' c' with
  | nil =>
    unfold get_versions_info_with_cache at h
    simp only [Except.ok.injEq, Prod.mk.injEq] at h
    obtain ⟨-, h2, h3⟩ := h
    subst h2
    subst h3
    exact ⟨fun x i hx => hx, rfl, by simp, by simp, rfl⟩
  | cons v rest ih =>
    unfold get_versions_info_with_cache at h
    cases h1 : get_version_info_with_cache g v repoDir cache with
    | error e1 => rw [h1] at h; simp at h
    | ok res =>
      obtain ⟨rd1, info1, c1⟩ := res
      rw [h1] at h
      dsimp only at h
      cases h2 : get_versions_info_with_cache g rest rd1 c1 with
      | error e2 => rw [h2] at h; simp at h
      | ok res2 =>
        obtain ⟨rd2, infos2, c2⟩ := res2
        rw [h2] at h
        simp only [Except.ok.injEq, Prod.mk.injEq] at h
        obtain ⟨-, hinfos, hc⟩ := h
        subst hinfos
        subst hc
        obtain ⟨hext2, hkeys2, hagree2, hval2, hhs2⟩ := ih h2
        obtain ⟨hval1, hhs1, hform1⟩ := get_version_info_ok_lookup h1
        have hext1 := get_version_info_extends h1
        refine ⟨fun x i hx => hext2 x i (hext1 x i hx), by simp [hkeys2], ?_, ?_, hhs2.trans hhs1⟩
        · intro p hp
          rcases List.mem_cons.mp hp with h3 | h3
          · subst h3
            simp only
            apply hext2
            rw [hform1 v, if_pos rfl]
          · exact hagree2 p h3
        · intro w hw
          rcases List.mem_cons.mp hw with h3 | h3
          · subst h3
            have : alookup c1.versions_info w = some info1 := by
              rw [hform1 w, if_pos rfl]
            rw [hext2 w info1 this, hval1]
          · rw [hval2 w h3]
            by_cases hvw : v = w
            · subst hvw
              have hc1v : alookup c1.versions_info v = some info1 := by
                rw [hform1 v, if_pos rfl]
              rw [hc1v]
              cases hc0 : alookup cache.versions_info v with
              | some i0 =>
                have := hext1 v i0 hc0
                rw [hc1v] at this
                injection this with hh
                rw [hval1, hc0]
                simp [hh]
              | none =>
                rw [hval1, hc0]
                rfl
            · rw [hform1 w, if_neg hvw]

/-- C9: After resolving any set of versions for a repo, the cache's
`versions_info` contains an entry for every requested version —
including a null entry for each version git could not resolve — and
every `versions_info` entry that existed before the call is left
unchanged (cached versions are never re-resolved or overwritten). -/
theorem C9_versions_info_complete_and_preserved (g : RepoOracle) (versions : List String)
    (repoDir : Bool) (cache : CacheItem) (rd' : Bool)
    (infos : List (String × Option (String × Int))) (c' : CacheItem)
    (hok : get_versions_info_with_cache g versions repoDir cache = .ok (rd', infos, c')) :
    (∀ v ∈ versions, alookup c'.versions_info v =
        some ((alookup cache.versions_info v).getD (g.resolve v)))
    ∧ (∀ v ∈ versions, alookup cache.versions_info v = none → g.resolve v = none →
        alookup c'.versions_info v = some none)
    ∧ (∀ x i, alookup cache.versions_info x = some i →
        alookup c'.versions_info x = some i) := by
  obtain ⟨hext, -, -, hval, -⟩ := get_versions_info_ok_lookup hok
  refine ⟨hval, ?_, hext⟩
  intro v hv hnone hres
  rw [hval v hv, hnone, hres]
  rfl

/-- Oracle used by concrete runs: `v1` resolves to commit `c1` at date 5,
everything else is unknown to git; cloning succeeds; linguist reports 7
bytes of `Py` for commit `c1`. -/
def oracleW : RepoOracle :=
  RepoOracle.mk (fun v => if v = "v1" then some ("c1", 5) else none) CloneOutcome.ok
    (fun c => if c = "c1" then some ([("Py", 7)], 7) else none)

/-- Starting cache used by concrete runs: `v0` already resolved. -/
def cacheW : CacheItem := CacheItem.mk [("v0", some ("c0", 1))] []

/-- C9 witness: a concrete resolution of `[v1, vX]` (one resolvable, one
not) against a cache that already knows `v0`: both requested versions get
entries (a null one for `vX`) and the pre-existing `v0` entry survives. -/
theorem C9_versions_info_complete_and_preserved_witness :
    (get_versions_info_with_cache oracleW ["v1", "vX"] false cacheW =
      .ok (true, [("v1", some ("c1", 5)), ("vX", none)],
        CacheItem.mk [("vX", none), ("v1", some ("c1", 5)), ("v0", some ("c0", 1))] []))
    ∧ ((∀ v ∈ ["v1", "vX"],
          alookup (CacheItem.mk [("vX", none), ("v1", some ("c1", 5)), ("v0", some ("c0", 1))]
            []).versions_info v =
            some ((alookup cacheW.versions_info v).getD (oracleW.resolve v)))
      ∧ (∀ v ∈ ["v1", "vX"], alookup cacheW.versions_info v = none →
          oracleW.resolve v = none →
          alookup (CacheItem.mk [("vX", none), ("v1", some ("c1", 5)), ("v0", some ("c0", 1))]
            []).versions_info v = some none)
      ∧ (∀ x i, alookup cacheW.versions_info x = some i →
          alookup (CacheItem.mk [("vX", none), ("v1", some ("c1", 5)), ("v0", some ("c0", 1))]
            []).versions_info x = some i)) :=
  ⟨by decide,
    C9_versions_info_complete_and_preserved oracleW ["v1", "vX"] false cacheW true
      [("v1", some ("c1", 5)), ("vX", none)]
      (CacheItem.mk [("vX", none), ("v1", some ("c1", 5)), ("v0", some ("c0", 1))] [])
      (by decide)⟩

/-! ### The per-repo conversion engine (`converter.py`, `osv_group_to_repovul_group`) -/

/-- Possible outcomes of the conversion process (converter.py lines 31-37). -/
inductive ConversionStatusCode
  | OK
  | REPO_NOT_FOUND
  | GIT_RUNTIME_ERROR
  | LINGUIST_ERROR
deriving DecidableEq

/-- `Converter.filter_out_no_affected_versions` (converter.py lines 330-340). -/
def filter_out_no_affected_versions (osv_group : List OSVVulnerability) :
    List OSVVulnerability :=
  osv_group.filter (fun o => decide (o.affected_versions ≠ []))

/-- `Converter.filter_out_withdrawn` (converter.py lines 342-350). -/
def filter_out_withdrawn (osv_group : List OSVVulnerability) : List OSVVulnerability :=
  osv_group.filter (fun o => !o.withdrawn)

/-- Map a fallible function over a list, failing on the first error
(models a Python loop in which each iteration may raise). -/
def mapExcept {ε α β : Type} (f : α → Except ε β) : List α → Except ε (List β)
  | [] => .ok []
  | a :: t =>
    match f a with
    | .error e => .error e
    | .ok b =>
      match mapExcept f t with
      | .error e => .error e
      | .ok bs => .ok (b :: bs)

/-- Keys of a Python dict built by indexed assignment over this list:
unique, in first-occurrence order. -/
def pyKeys : List String → List String
  | [] => []
  | v :: t => v :: (pyKeys t).filter (fun w => decide (w ≠ v))

/-- The existing revision reused for a version, if any: the source builds
`commit_to_existing_revision = {r.commit: r for r in existing_revisions}`
(last writer wins) and takes it at the version's resolved commit
(converter.py lines 421-429). -/
def existingFor (versions_info : List (String × Option (String × Int)))
    (existing : List RepovulRevision) (v : String) : Option RepovulRevision :=
  match alookup versions_info v with
  | some (some (c, _)) => List.find? (fun r => decide (r.commit = c)) existing.reverse
  | _ => none

/-- `Converter.process_new_version` (converter.py lines 392-410): checkout
and measure one commit; `none` from the linguist oracle is a
`LinguistError`. -/
def process_new_version (g : RepoOracle) (repo_url : String)
    (versions_info : List (String × Option (String × Int))) (v : String) :
    Except ConvErr (String × RepovulRevision) :=
  match alookup versions_info v with
  | some (some (c, d)) =>
    match g.measure c with
    | some (langs, size) => .ok (v, RepovulRevision.mk c repo_url d langs size)
    | none => .error .linguist
  | _ => .error .valueError

/-- `Converter.versions_to_repovul_revisions_with_cache` (converter.py
lines 412-447): reuse existing revisions by commit; if some hitting-set
version has no reusable revision, clone (if not yet done) and measure
the missing ones.  Returns the version-to-revision dict. -/
def versions_to_repovul_revisions_with_cache (g : RepoOracle) (versions : List String)
    (versions_info : List (String × Option (String × Int))) (repo_url : String)
    (repoDir : Bool) (existing : List RepovulRevision) :
    Except ConvErr (Bool × List (String × RepovulRevision)) :=
  let ext := (pyKeys versions).filterMap
    (fun v => (existingFor versions_info existing v).map (fun r => (v, r)))
  if ext.length = versions.length then .ok (repoDir, ext)
  else
    match cloneCheck g repoDir with
    | .error e => .error e
    | .ok _ =>
      match mapExcept (process_new_version g repo_url versions_info)
          ((pyKeys versions).filter (fun v => decide (existingFor versions_info existing v = none)))
        with
      | .error e => .error e
      | .ok news => .ok (true, ext ++ news)

/-- Emission of the per-entry vulnerability records (converter.py lines
310-327): for each surviving OSV entry, keep the hitting-set versions
appearing among its affected versions and map them through the
version-to-revision dict (a missing key would be a Python `KeyError`). -/
def emitItems (osv_group : List OSVVulnerability) (hs : List String)
    (revMap : List (String × RepovulRevision)) : Except ConvErr (List RepovulItem) :=
  mapExcept (fun o =>
    match mapExcept (fun v =>
        match alookup revMap v with
        | some r => .ok r.commit
        | none => .error ConvErr.valueError)
        (hs.filter (fun v => decide (v ∈ o.affected_versions))) with
    | .error e => .error e
    | .ok commits => .ok (RepovulItem.mk o.id o.published o.modified o.details o.summary
        o.severity o.repo_url o.cwes commits)) osv_group

/-- Core of `Converter.osv_group_to_repovul_group` after version
resolution and unresolved-version filtering (converter.py lines
289-328): build `version_dates`, run the cached hitting-set solve, then
materialize revisions and emit one record per surviving entry. -/
def osv_group_core (g : RepoOracle) (solveOrder : List String) (repo_url : String)
    (g2 : List OSVVulnerability) (byItem2 : List (String × List String))
    (versions_info : List (String × Option (String × Int))) (repoDir : Bool)
    (existing : List RepovulRevision) (cache1 : CacheItem) :
    Except (ConvErr × CacheItem) (List RepovulItem × List RepovulRevision × CacheItem) :=
  let version_dates := versions_info.filterMap (fun p => p.2.map (fun ci => (p.1, ci.2)))
  match solve_hitting_set_with_cache solveOrder (byItem2.map (fun q => q.2)) version_dates
      cache1 with
  | none => .error (.valueError, cache1)
  | some (hs, cache2) =>
    match versions_to_repovul_revisions_with_cache g hs versions_info repo_url repoDir
        existing with
    | .error e => .error (e, cache2)
    | .ok (_, revMap) =>
      match emitItems g2 hs revMap with
      | .error e => .error (e, cache2)
      | .ok items => .ok (items, revMap.map (fun q => q.2), cache2)

/-- Shallow embedding of `Converter.osv_group_to_repovul_group`
(converter.py lines 236-328).  `allOrder` is the iteration order of the
Python set `all_versions` (an invalid enumeration is rejected as an
uncaught error, since in the source the set is built from the very same
lists); `solveOrder` plays the same role inside `solve_hitting_set`. -/
def osv_group_to_repovul_group (g : RepoOracle) (allOrder solveOrder : List String)
    (repo_url : String) (osv_group : List OSVVulnerability) (cache : CacheItem)
    (existing : List RepovulRevision) :
    Except (ConvErr × CacheItem) (List RepovulItem × List RepovulRevision × CacheItem) :=
  let g2 := filter_out_withdrawn (filter_out_no_affected_versions osv_group)
  if g2.isEmpty then .ok ([], [], cache)
  else
    let byItem : List (String × List String) := g2.map (fun o => (o.id, o.affected_versions))
    if validEnum allOrder (g2.flatMap (fun o => o.affected_versions)) then
      match get_versions_info_with_cache g allOrder false cache with
      | .error e => .error e
      | .ok (repoDir, versions_info, cache1) =>
        let unknown := (versions_info.filter (fun p => decide (p.2 = none))).map
          (fun p => p.1)
        if unknown.isEmpty then
          osv_group_core g solveOrder repo_url g2 byItem versions_info repoDir existing cache1
        else
          let byItem2 := (byItem.map (fun q =>
            (q.1, q.2.filter (fun v => decide (v ∉ unknown))))).filter
              (fun q => decide (q.2 ≠ []))
          if (allOrder.filter (fun v => decide (v ∉ unknown))).isEmpty then
            .ok ([], [], cache1)
          else
            osv_group_core g solveOrder repo_url g2 byItem2 versions_info repoDir existing
              cache1
    else .error (.valueError, cache)

/-- Shallow embedding of `Converter.convert_one_inner` (converter.py
lines 52-84): run the per-repo conversion in a scoped temp directory,
catching the three gateway exceptions into empty outputs with the
corresponding status code; any other exception propagates (`.error`). -/
def convert_one_inner (g : RepoOracle) (allOrder solveOrder : List String)
    (repo_url : String) (osv_items : List OSVVulnerability) (cache : CacheItem)
    (existing : List RepovulRevision) :
    Except Unit (List RepovulItem × List RepovulRevision × CacheItem ×
      ConversionStatusCode) :=
  match osv_group_to_repovul_group g allOrder solveOrder repo_url osv_items cache existing with
  | .ok (items, revs, c) => .ok (items, revs, c, .OK)
  | .error (.repoNotFound, c) => .ok ([], [], c, .REPO_NOT_FOUND)
  | .error (.gitRuntime, c) => .ok ([], [], c, .GIT_RUNTIME_ERROR)
  | .error (.linguist, c) => .ok ([], [], c, .LINGUIST_ERROR)
  | .error (.valueError, _) => .error ()

/-! ### List utilities for the pipeline proofs -/

theorem klookup_mem {κ β : Type} [DecidableEq κ] {l : List (κ × β)} {x : κ} {b : β}
    (h : klookup l x = some b) : (x, b) ∈ l := by
  induction l with
  | nil => simp [klookup] at h
  | cons p t ih =>
    unfold klookup at h
    by_cases hp : p.1 = x
    · rw [if_pos hp] at h
      injection h with h2
      cases p with
      | mk k v =>
        simp only at hp h2
        subst hp
        subst h2
        exact List.mem_cons_self _ _
    · rw [if_neg hp] at h
      exact List.mem_cons_of_mem _ (ih h)

theorem alookup_of_mem_nodup {β : Type} {l : List (String × β)}
    (hnd : (l.map Prod.fst).Nodup) {x : String} {b : β} (h : (x, b) ∈ l) :
    alookup l x = some b := by
  induction l with
  | nil => simp at h
  | cons p t ih =>
    rw [List.map_cons, List.nodup_cons] at hnd
    rcases List.mem_cons.mp h with h1 | h1
    · subst h1
      rw [alookup_cons, if_pos rfl]
    · rw [alookup_cons]
      have hne : p.1 ≠ x := by
        intro he
        exact hnd.1 (he ▸ List.mem_map_of_mem Prod.fst h1)
      rw [if_neg hne]
      exact ih hnd.2 h1

theorem alookup_filterMap_keys {β : Type} {keys : List String} (hnd : keys.Nodup)
    (f : String → Option β) (x : String) :
    alookup (keys.filterMap (fun v => (f v).map (fun r => (v, r)))) x =
      if x ∈ keys then f x else none := by
  induction keys with
  | nil => simp [alookup]
  | cons v t ih =>
    rw [List.nodup_cons] at hnd
    rw [List.filterMap_cons]
    cases hf : f v with
    | none =>
      rw [show Option.map (fun r => (v, r)) (none : Option β) = none from rfl, ih hnd.2]
      by_cases hx : x ∈ v :: t
      · rcases List.mem_cons.mp hx with h1 | h1
        · subst h1
          rw [if_pos hx, if_neg (fun h => hnd.1 h), hf]
        · rw [if_pos hx, if_pos h1]
      · rw [if_neg hx, if_neg (fun h => hx (List.mem_cons_of_mem _ h))]
    | some r =>
      rw [show Option.map (fun r => (v, r)) (some r) = some (v, r) from rfl, alookup_cons]
      simp only
      by_cases hvx : v = x
      · subst hvx
        rw [if_pos rfl, if_pos (List.mem_cons_self _ _), hf]
      · rw [if_neg hvx, ih hnd.2]
        by_cases hx : x ∈ t
        · rw [if_pos hx, if_pos (List.mem_cons_of_mem _ hx)]
        · rw [if_neg hx, if_neg ?hne]
          case hne =>
            intro h
            rcases List.mem_cons.mp h with h1 | h1
            · exact hvx h1.symm
            · exact hx h1

theorem filterMap_pair_mem {β : Type} {keys : List String} {f : String → Option β}
    {q : String × β} :
    q ∈ keys.filterMap (fun v => (f v).map (fun r => (v, r))) ↔
      q.1 ∈ keys ∧ f q.1 = some q.2 := by
  rw [List.mem_filterMap]
  constructor
  · rintro ⟨v, hv, hq⟩
    cases hfv : f v with
    | none =>
      rw [hfv, show Option.map (fun r => (v, r)) (none : Option β) = none from rfl] at hq
      exact Option.noConfusion hq
    | some r =>
      rw [hfv, show Option.map (fun r => (v, r)) (some r) = some (v, r) from rfl] at hq
      injection hq with hq2
      rw [← hq2]
      exact ⟨hv, hfv⟩
  · rintro ⟨h1, h2⟩
    exact ⟨q.1, h1, by rw [h2]; rfl⟩

theorem pyKeys_sub (l : List String) : ∀ v ∈ pyKeys l, v ∈ l := by
  induction l with
  | nil => simp [pyKeys]
  | cons a t ih =>
    intro v hv
    unfold pyKeys at hv
    rcases List.mem_cons.mp hv with h1 | h1
    · subst h1; exact List.mem_cons_self _ _
    · exact List.mem_cons_of_mem _ (ih v (List.mem_of_mem_filter h1))

theorem mem_pyKeys (l : List String) : ∀ v ∈ l, v ∈ pyKeys l := by
  induction l with
  | nil => simp
  | cons a t ih =>
    intro v hv
    unfold pyKeys
    rcases List.mem_cons.mp hv with h1 | h1
    · subst h1; exact List.mem_cons_self _ _
    · by_cases hva : v = a
      · subst hva; exact List.mem_cons_self _ _
      · exact List.mem_cons_of_mem _ (List.mem_filter.mpr ⟨ih v h1, by simpa using hva⟩)

theorem pyKeys_nodup (l : List String) : (pyKeys l).Nodup := by
  induction l with
  | nil => simp [pyKeys]
  | cons a t ih =>
    unfold pyKeys
    rw [List.nodup_cons]
    constructor
    · intro h
      have := List.mem_filter.mp h
      simp at this
    · exact List.Nodup.filter _ ih

theorem pyKeys_length_le (l : List String) : (pyKeys l).length ≤ l.length := by
  induction l with
  | nil => simp [pyKeys]
  | cons a t ih =>
    unfold pyKeys
    have := List.length_filter_le (fun w => decide (w ≠ a)) (pyKeys t)
    simp only [List.length_cons]
    omega

theorem filterMap_length_eq_forall_isSome {β : Type} {keys : List String}
    {f : String → Option β}
    (h : (keys.filterMap f).length = keys.length) : ∀ a ∈ keys, (f a).isSome = true := by
  induction keys with
  | nil => simp
  | cons v t ih =>
    rw [List.filterMap_cons] at h
    cases hf : f v with
    | none =>
      rw [hf] at h
      have hle := List.length_filterMap_le f t
      simp only [List.length_cons] at h
      exfalso
      omega
    | some r =>
      rw [hf] at h
      simp only [List.length_cons] at h
      intro a ha
      rcases List.mem_cons.mp ha with h1 | h1
      · subst h1; rw [hf]; rfl
      · exact ih (by omega) a h1

theorem mapExcept_ok_forall₂ {ε α β : Type} {f : α → Except ε β} {l : List α}
    {bs : List β} (h : mapExcept f l = .ok bs) :
    List.Forall₂ (fun a b => f a = .ok b) l bs := by
  induction l generalizing bs with
  | nil =>
    unfold mapExcept at h
    simp only [Except.ok.injEq] at h
    subst h
    exact List.Forall₂.nil
  | cons a t ih =>
    unfold mapExcept at h
    cases hf : f a with
    | error e => rw [hf] at h; simp at h
    | ok b =>
      rw [hf] at h
      dsimp only at h
      cases ht : mapExcept f t with
      | error e => rw [ht] at h; simp at h
      | ok bs' =>
        rw [ht] at h
        simp only [Except.ok.injEq] at h
        subst h
        exact List.Forall₂.cons hf (ih ht)

theorem forall₂_mem_left {α β : Type} {P : α → β → Prop} {l : List α} {bs : List β}
    (h : List.Forall₂ P l bs) {a : α} (ha : a ∈ l) : ∃ b ∈ bs, P a b := by
  induction h with
  | nil => simp at ha
  | cons hab htl ih =>
    rcases List.mem_cons.mp ha with h1 | h1
    · subst h1
      exact ⟨_, List.mem_cons_self _ _, hab⟩
    · obtain ⟨b, hb, hPb⟩ := ih h1
      exact ⟨b, List.mem_cons_of_mem _ hb, hPb⟩

theorem forall₂_mem_right {α β : Type} {P : α → β → Prop} {l : List α} {bs : List β}
    (h : List.Forall₂ P l bs) {b : β} (hb : b ∈ bs) : ∃ a ∈ l, P a b := by
  induction h with
  | nil => simp at hb
  | cons hab htl ih =>
    rcases List.mem_cons.mp hb with h1 | h1
    · subst h1
      exact ⟨_, List.mem_cons_self _ _, hab⟩
    · obtain ⟨a, ha, hPa⟩ := ih h1
      exact ⟨a, List.mem_cons_of_mem _ ha, hPa⟩

theorem process_new_version_ok {g : RepoOracle} {repo_url : String}
    {versions_info : List (String × Option (String × Int))} {v : String}
    {p : String × RepovulRevision}
    (h : process_new_version g repo_url versions_info v = .ok p) :
    p.1 = v ∧ ∃ c d langs size, alookup versions_info v = some (some (c, d)) ∧
      g.measure c = some (langs, size) ∧ p.2 = RepovulRevision.mk c repo_url d langs size := by
  unfold process_new_version at h
  cases hvi : alookup versions_info v with
  | none =>
    rw [hvi] at h
    exact Except.noConfusion h
  | some oi =>
    rw [hvi] at h
    cases oi with
    | none => exact Except.noConfusion h
    | some cd =>
      obtain ⟨c, d⟩ := cd
      dsimp only at h
      cases hm : g.measure c with
      | none =>
        rw [hm] at h
        exact Except.noConfusion h
      | some ls =>
        obtain ⟨langs, size⟩ := ls
        rw [hm] at h
        dsimp only at h
        injection h with h2
        rw [← h2]
        exact ⟨rfl, c, d, langs, size, rfl, hm, rfl⟩

theorem existingFor_some {versions_info : List (String × Option (String × Int))}
    {existing : List RepovulRevision} {v : String} {r : RepovulRevision}
    (h : existingFor versions_info existing v = some r) :
    ∃ c d, alookup versions_info v = some (some (c, d)) ∧ r.commit = c ∧ r ∈ existing := by
  unfold existingFor at h
  cases hvi : alookup versions_info v with
  | none => rw [hvi] at h; exact Option.noConfusion h
  | some oi =>
    rw [hvi] at h
    cases oi with
    | none => exact Option.noConfusion h
    | some cd =>
      obtain ⟨c, d⟩ := cd
      refine ⟨c, d, rfl, ?_, ?_⟩
      · have := List.find?_some h
        simpa using this
      · exact List.mem_reverse.mp (List.mem_of_find?_eq_some h)

theorem filterMap_pair_keys {β : Type} (keys : List String) (f : String → Option β) :
    (keys.filterMap (fun v => (f v).map (fun r => (v, r)))).map Prod.fst =
      keys.filter (fun v => (f v).isSome) := by
  induction keys with
  | nil => simp
  | cons v t ih =>
    rw [List.filterMap_cons, List.filter_cons]
    cases hf : f v with
    | none =>
      rw [show Option.map (fun r => (v, r)) (none : Option β) = none from rfl]
      simp only [hf, Option.isSome_none, if_neg]
      exact ih
    | some r =>
      rw [show Option.map (fun r => (v, r)) (some r) = some (v, r) from rfl]
      simp only [hf, Option.isSome_some, if_pos, List.map_cons]
      rw [ih]

theorem mapExcept_news_keys {g : RepoOracle} {repo_url : String}
    {versions_info : List (String × Option (String × Int))} {l : List String}
    {news : List (String × RepovulRevision)}
    (h : mapExcept (process_new_version g repo_url versions_info) l = .ok news) :
    news.map Prod.fst = l := by
  have hf := mapExcept_ok_forall₂ h
  clear h
  induction hf with
  | nil => rfl
  | cons hab htl ih =>
    rw [List.map_cons, (process_new_version_ok hab).1, ih]

theorem versions_to_ok_spec {g : RepoOracle} {versions : List String}
    {versions_info : List (String × Option (String × Int))} {repo_url : String}
    {repoDir : Bool} {existing : List RepovulRevision} {rd2 : Bool}
    {revMap : List (String × RepovulRevision)}
    (hok : versions_to_repovul_revisions_with_cache g versions versions_info repo_url
      repoDir existing = .ok (rd2, revMap)) :
    ((revMap.map Prod.fst).Nodup)
    ∧ (∀ v ∈ versions, ∃ r, alookup revMap v = some r)
    ∧ (∀ q ∈ revMap, q.1 ∈ versions
        ∧ (∃ c d, alookup versions_info q.1 = some (some (c, d)) ∧ q.2.commit = c)
        ∧ (q.2 ∈ existing ∨ q.2.repo_url = repo_url)) := by
  unfold versions_to_repovul_revisions_with_cache at hok
  set ef := existingFor versions_info existing with hef
  set ext := (pyKeys versions).filterMap (fun v => (ef v).map (fun r => (v, r))) with hext
  have hextkeys : ext.map Prod.fst = (pyKeys versions).filter (fun v => (ef v).isSome) := by
    rw [hext]
    exact filterMap_pair_keys (pyKeys versions) ef
  have hextnd : (ext.map Prod.fst).Nodup := by
    rw [hextkeys]
    exact List.Nodup.filter _ (pyKeys_nodup versions)
  have hextlook : ∀ x, alookup ext x = if x ∈ pyKeys versions then ef x else none := by
    intro x
    rw [hext]
    exact alookup_filterMap_keys (pyKeys_nodup versions) ef x
  have hextmem : ∀ q ∈ ext, q.1 ∈ versions
      ∧ (∃ c d, alookup versions_info q.1 = some (some (c, d)) ∧ q.2.commit = c)
      ∧ (q.2 ∈ existing ∨ q.2.repo_url = repo_url) := by
    intro q hq
    rw [hext] at hq
    obtain ⟨hq1, hq2⟩ := filterMap_pair_mem.mp hq
    rw [hef] at hq2
    obtain ⟨c, d, hvi, hcm, hex⟩ := existingFor_some hq2
    exact ⟨pyKeys_sub versions q.1 hq1, ⟨c, d, hvi, hcm⟩, Or.inl hex⟩
  by_cases hlen : ext.length = versions.length
  · rw [if_pos hlen] at hok
    injection hok with h2
    have hrm : ext = revMap := congrArg Prod.snd h2
    subst hrm
    refine ⟨hextnd, ?_, hextmem⟩
    intro v hv
    have hvk := mem_pyKeys versions v hv
    have hle1 : ext.length ≤ (pyKeys versions).length := by
      rw [hext]
      exact List.length_filterMap_le _ _
    have hle2 := pyKeys_length_le versions
    have hlen2 : ((pyKeys versions).filterMap
        (fun v => (ef v).map (fun r => (v, r)))).length = (pyKeys versions).length := by
      rw [← hext]
      omega
    have hall := filterMap_length_eq_forall_isSome hlen2 v hvk
    cases hev : ef v with
    | none =>
      rw [hev, show Option.map (fun r => (v, r)) (none : Option RepovulRevision) = none
        from rfl] at hall
      exact absurd hall (by simp)
    | some r =>
      refine ⟨r, ?_⟩
      rw [hextlook v, if_pos hvk, hev]
  · rw [if_neg hlen] at hok
    cases hcl : cloneCheck g repoDir with
    | error e =>
      rw [hcl] at hok
      exact Except.noConfusion hok
    | ok u =>
      rw [hcl] at hok
      dsimp only at hok
      cases hme : mapExcept (process_new_version g repo_url versions_info)
          ((pyKeys versions).filter (fun v => decide (ef v = none))) with
      | error e =>
        rw [hme] at hok
        exact Except.noConfusion hok
      | ok news =>
        rw [hme] at hok
        dsimp only at hok
        injection hok with h2
        have hrm : ext ++ news = revMap := congrArg Prod.snd h2
        subst hrm
        have hnewskeys : news.map Prod.fst =
            (pyKeys versions).filter (fun v => decide (ef v = none)) :=
          mapExcept_news_keys hme
        have hnewsnd : (news.map Prod.fst).Nodup := by
          rw [hnewskeys]
          exact List.Nodup.filter _ (pyKeys_nodup versions)
        have hdisj : ∀ x ∈ ext.map Prod.fst, x ∉ news.map Prod.fst := by
          intro x hx1 hx2
          rw [hextkeys] at hx1
          rw [hnewskeys] at hx2
          have h1 := (List.mem_filter.mp hx1).2
          have h2 := (List.mem_filter.mp hx2).2
          rw [decide_eq_true_iff] at h2
          rw [h2] at h1
          exact absurd h1 (by simp)
        have hndall : ((ext ++ news).map Prod.fst).Nodup := by
          rw [List.map_append]
          exact List.Nodup.append hextnd hnewsnd hdisj
        refine ⟨hndall, ?_, ?_⟩
        · intro v hv
          have hvk := mem_pyKeys versions v hv
          cases hev : ef v with
          | some r =>
            refine ⟨r, ?_⟩
            rw [alookup_append, hextlook v, if_pos hvk, hev]
            rfl
          | none =>
            have hvu : v ∈ news.map Prod.fst := by
              rw [hnewskeys]
              exact List.mem_filter.mpr ⟨hvk, by rw [decide_eq_true_iff]; exact hev⟩
            obtain ⟨q, hq, hq1⟩ := List.mem_map.mp hvu
            refine ⟨q.2, ?_⟩
            rw [alookup_append, hextlook v, if_pos hvk, hev]
            have : alookup news v = some q.2 := by
              apply alookup_of_mem_nodup hnewsnd
              rw [← hq1]
              exact hq
            rw [show (none : Option RepovulRevision).orElse
              (fun _ => alookup news v) = alookup news v from rfl, this]
        · intro q hq
          rcases List.mem_append.mp hq with h1 | h1
          · exact hextmem q h1
          · obtain ⟨a, ha, hab⟩ := forall₂_mem_right (mapExcept_ok_forall₂ hme) h1
            obtain ⟨hq1, c, d, langs, size, hvi, hm, hq2⟩ := process_new_version_ok hab
            have hav : a ∈ versions :=
              pyKeys_sub versions a (List.mem_of_mem_filter ha)
            rw [← hq1] at hav hvi
            refine ⟨hav, ⟨c, d, hvi, by rw [hq2]⟩, Or.inr (by rw [hq2])⟩

theorem emitItems_ok_spec {osv_group : List OSVVulnerability} {hs : List String}
    {revMap : List (String × RepovulRevision)} {items : List RepovulItem}
    (h : emitItems osv_group hs revMap = .ok items) :
    List.Forall₂ (fun o it => it.id = o.id ∧ it.repo_url = o.repo_url ∧
      List.Forall₂ (fun v cm => ∃ r, alookup revMap v = some r ∧ cm = r.commit)
        (hs.filter (fun v => decide (v ∈ o.affected_versions))) it.commits)
      osv_group items := by
  unfold emitItems at h
  have hf := mapExcept_ok_forall₂ h
  clear h
  induction hf with
  | nil => exact List.Forall₂.nil
  | cons hab htl ih =>
    refine List.Forall₂.cons ?_ ih
    rename_i o it l₁ l₂
    cases hin : mapExcept (fun v =>
        match alookup revMap v with
        | some r => Except.ok r.commit
        | none => Except.error ConvErr.valueError)
        (hs.filter (fun v => decide (v ∈ o.affected_versions))) with
    | error e =>
      rw [hin] at hab
      exact Except.noConfusion hab
    | ok commits =>
      rw [hin] at hab
      dsimp only at hab
      injection hab with hab2
      rw [← hab2]
      refine ⟨rfl, rfl, ?_⟩
      have hfin := mapExcept_ok_forall₂ hin
      refine List.Forall₂.imp ?_ hfin
      intro v cm hvc
      cases hl : alookup revMap v with
      | none => rw [hl] at hvc; exact Except.noConfusion hvc
      | some r =>
        rw [hl] at hvc
        injection hvc with hvc2
        exact ⟨r, rfl, hvc2.symm⟩

theorem solve_hitting_set_some_mem {order : List String} {lists : List (List String)}
    {vd : List (String × Int)} {H : List String}
    (h : solve_hitting_set order lists vd = some H) :
    (∀ v ∈ H, v ∈ lists.flatten) ∧ H.Nodup := by
  unfold solve_hitting_set at h
  by_cases hg : (validEnum order lists.flatten && order.all fun v => hasDate vd v) = true
  · rw [if_pos hg] at h
    have hmem := pickBest_mem h
    rw [List.mem_filter] at hmem
    have hsub := List.mem_sublists.mp hmem.1
    rw [Bool.and_eq_true] at hg
    obtain ⟨hnd, hop, -⟩ := (validEnum_iff _ _).mp hg.1
    exact ⟨fun v hv => hop v (hsub.mem hv), hsub.nodup hnd⟩
  · rw [if_neg hg] at h
    exact Option.noConfusion h

/-- Well-formedness of cached hitting-set results: every stored solution
draws its versions from the lists recorded in its own key.  This is an
invariant of cache entries written by `solve_hitting_set_with_cache`. -/
def cacheHSWF (cache : CacheItem) : Prop :=
  ∀ k s, (k, s) ∈ cache.hitting_set_results → ∀ v ∈ s, ∃ l ∈ k.lists, v ∈ l

theorem shswc_some_spec {order : List String} {lists : List (List String)}
    {vd : List (String × Int)} {cache : CacheItem} {sol : List String} {cache' : CacheItem}
    (h : solve_hitting_set_with_cache order lists vd cache = some (sol, cache'))
    (hwf : cacheHSWF cache) :
    (∀ v ∈ sol, ∃ l ∈ lists, v ∈ l) ∧ cache'.versions_info = cache.versions_info := by
  unfold solve_hitting_set_with_cache at h
  cases hk : klookup cache.hitting_set_results (argumentsKey lists vd) with
  | some s =>
    rw [hk] at h
    injection h with h2
    have hsol : s = sol := congrArg Prod.fst h2
    have hcc : cache = cache' := congrArg Prod.snd h2
    subst hsol
    subst hcc
    refine ⟨?_, rfl⟩
    intro v hv
    obtain ⟨l, hl, hvl⟩ := hwf _ _ (klookup_mem hk) v hv
    have hl2 : l ∈ (lists.map sortStrings) :=
      (List.Perm.mem_iff (sortStringLists_perm (lists.map sortStrings))).mp hl
    obtain ⟨l0, hl0, hl0eq⟩ := List.mem_map.mp hl2
    refine ⟨l0, hl0, ?_⟩
    rw [← hl0eq] at hvl
    exact (List.Perm.mem_iff (sortStrings_perm l0)).mp hvl
  | none =>
    rw [hk] at h
    cases hs : solve_hitting_set order lists vd with
    | none =>
      rw [hs] at h
      exact Option.noConfusion h
    | some H =>
      rw [hs] at h
      dsimp only at h
      injection h with h2
      have hsol : H = sol := congrArg Prod.fst h2
      have hcc := congrArg Prod.snd h2
      dsimp only at hcc
      subst hsol
      subst hcc
      refine ⟨?_, rfl⟩
      intro v hv
      obtain ⟨l, hl, hvl⟩ := List.mem_flatten.mp ((solve_hitting_set_some_mem hs).1 v hv)
      exact ⟨l, hl, hvl⟩

theorem forall₂_commits_eq {revMap : List (String × RepovulRevision)} {l : List String}
    {cms : List String}
    (h : List.Forall₂ (fun v cm => ∃ r, alookup revMap v = some r ∧ cm = r.commit) l cms) :
    cms = l.map (fun v => ((alookup revMap v).map (fun r => r.commit)).getD "") := by
  induction h with
  | nil => rfl
  | cons hab htl ih =>
    obtain ⟨r, hr, hcm⟩ := hab
    rw [List.map_cons, ← ih, hr]
    rw [hcm]
    rfl

theorem osv_group_core_ok_spec {g : RepoOracle} {solveOrder : List String}
    {repo_url : String} {g2 : List OSVVulnerability}
    {byItem2 : List (String × List String)}
    {versions_info : List (String × Option (String × Int))} {repoDir : Bool}
    {existing : List RepovulRevision} {cache1 : CacheItem}
    {items : List RepovulItem} {revs : List RepovulRevision} {cache2 : CacheItem}
    (hok : osv_group_core g solveOrder repo_url g2 byItem2 versions_info repoDir existing
      cache1 = .ok (items, revs, cache2))
    (hwf : cacheHSWF cache1)
    (hsrc : ∀ q ∈ byItem2, ∀ v ∈ q.2, ∃ o ∈ g2, v ∈ o.affected_versions)
    (hexist : ∀ r ∈ existing, r.repo_url = repo_url)
    (hitems : ∀ o ∈ g2, o.repo_url = repo_url) :
    (∀ it ∈ items, it.repo_url = repo_url)
    ∧ (∀ it ∈ items, ∀ cm ∈ it.commits, ∃ r ∈ revs, r.repo_url = it.repo_url ∧ r.commit = cm)
    ∧ (∀ r ∈ revs, r.repo_url = repo_url)
    ∧ (∀ cm, (∃ r ∈ revs, r.commit = cm) ↔ ∃ it ∈ items, cm ∈ it.commits)
    ∧ (∃ (hs : List String) (cf : String → String),
        (∀ v ∈ hs, ∃ r ∈ revs, r.commit = cf v)
        ∧ ∀ it ∈ items, ∃ o ∈ g2, it.id = o.id ∧
            it.commits = (hs.filter (fun v => decide (v ∈ o.affected_versions))).map cf) := by
  unfold osv_group_core at hok
  dsimp only at hok
  cases hsol : solve_hitting_set_with_cache solveOrder (byItem2.map (fun q => q.2))
      (versions_info.filterMap (fun p => p.2.map (fun ci => (p.1, ci.2)))) cache1 with
  | none =>
    rw [hsol] at hok
    exact Except.noConfusion hok
  | some sc =>
    obtain ⟨hs, cache2'⟩ := sc
    rw [hsol] at hok
    dsimp only at hok
    cases hrev : versions_to_repovul_revisions_with_cache g hs versions_info repo_url
        repoDir existing with
    | error e =>
      rw [hrev] at hok
      exact Except.noConfusion hok
    | ok rr =>
      obtain ⟨rd2, revMap⟩ := rr
      rw [hrev] at hok
      dsimp only at hok
      cases hemit : emitItems g2 hs revMap with
      | error e =>
        rw [hemit] at hok
        exact Except.noConfusion hok
      | ok items' =>
        rw [hemit] at hok
        dsimp only at hok
        injection hok with hok2
        have hitemseq : items' = items := congrArg Prod.fst hok2
        have hrest := congrArg Prod.snd hok2
        dsimp only at hrest
        have hrevs : revMap.map (fun q => q.2) = revs := congrArg Prod.fst hrest
        subst hitemseq
        obtain ⟨hhsmem, -⟩ := shswc_some_spec hsol hwf
        obtain ⟨hrmnd, hrmall, hrmmem⟩ := versions_to_ok_spec hrev
        have hemitf := emitItems_ok_spec hemit
        have hrmrepo : ∀ q ∈ revMap, q.2.repo_url = repo_url := by
          intro q hq
          rcases (hrmmem q hq).2.2 with h1 | h1
          · exact hexist q.2 h1
          · exact h1
        refine ⟨?_, ?_, ?_, ?_, ?_⟩
        · intro it hit
          obtain ⟨o, ho, -, hrepo, -⟩ := forall₂_mem_right hemitf hit
          rw [hrepo]
          exact hitems o ho
        · intro it hit cm hcm
          obtain ⟨o, ho, -, hrepo, hcomm⟩ := forall₂_mem_right hemitf hit
          obtain ⟨v, hv, r, hlk, hcmr⟩ := forall₂_mem_right hcomm hcm
          have hqmem : (v, r) ∈ revMap := alookup_mem hlk
          refine ⟨r, ?_, ?_, hcmr.symm⟩
          · rw [← hrevs]
            exact List.mem_map.mpr ⟨(v, r), hqmem, rfl⟩
          · rw [hrepo, hitems o ho]
            exact hrmrepo (v, r) hqmem
        · intro r hr
          rw [← hrevs] at hr
          obtain ⟨q, hq, hqr⟩ := List.mem_map.mp hr
          rw [← hqr]
          exact hrmrepo q hq
        · intro cm
          constructor
          · rintro ⟨r, hr, hrc⟩
            rw [← hrevs] at hr
            obtain ⟨q, hq, hqr⟩ := List.mem_map.mp hr
            obtain ⟨hqhs, -, -⟩ := hrmmem q hq
            obtain ⟨l, hl, hvl⟩ := hhsmem q.1 hqhs
            obtain ⟨p, hp, hpl⟩ := List.mem_map.mp hl
            obtain ⟨o, ho, hvo⟩ := hsrc p hp q.1 (by rw [hpl]; exact hvl)
            obtain ⟨it, hitm, -, -, hcomm⟩ := forall₂_mem_left hemitf ho
            have hvconc : q.1 ∈ hs.filter (fun v => decide (v ∈ o.affected_versions)) :=
              List.mem_filter.mpr ⟨hqhs, by rw [decide_eq_true_iff]; exact hvo⟩
            obtain ⟨cm', hcm', r', hlk', hcmr'⟩ := forall₂_mem_left hcomm hvconc
            have : alookup revMap q.1 = some q.2 := by
              apply alookup_of_mem_nodup hrmnd
              exact (show ((q.1 : String), q.2) = q from rfl) ▸ hq
            rw [this] at hlk'
            injection hlk' with hr'
            refine ⟨it, hitm, ?_⟩
            rw [← hrc, ← hqr]
            rw [hr', ← hcmr']
            exact hcm'
          · rintro ⟨it, hitm, hcm⟩
            obtain ⟨o, ho, -, -, hcomm⟩ := forall₂_mem_right hemitf hitm
            obtain ⟨v, hv, r, hlk, hcmr⟩ := forall₂_mem_right hcomm hcm
            refine ⟨r, ?_, hcmr.symm⟩
            rw [← hrevs]
            exact List.mem_map.mpr ⟨(v, r), alookup_mem hlk, rfl⟩
        · refine ⟨hs, fun v => ((alookup revMap v).map (fun r => r.commit)).getD "", ?_, ?_⟩
          · intro v hv
            obtain ⟨r, hr⟩ := hrmall v hv
            refine ⟨r, ?_, ?_⟩
            · rw [← hrevs]
              exact List.mem_map.mpr ⟨(v, r), alookup_mem hr, rfl⟩
            · show r.commit = ((alookup revMap v).map (fun r => r.commit)).getD ""
              rw [hr]
              rfl
          · intro it hit
            obtain ⟨o, ho, hid, -, hcomm⟩ := forall₂_mem_right hemitf hit
            exact ⟨o, ho, hid, forall₂_commits_eq hcomm⟩

theorem triple_eq {α β γ : Type} {a a' : α} {b b' : β} {c c' : γ}
    (h : (a, b, c) = (a', b', c')) : a = a' ∧ b = b' ∧ c = c' := by
  injection h with h1 h2
  injection h2 with h2 h3
  exact ⟨h1, h2, h3⟩

theorem osv_group_to_repovul_group_ok_spec {g : RepoOracle} {allOrder solveOrder : List String}
    {repo_url : String} {osv_group : List OSVVulnerability} {cache : CacheItem}
    {existing : List RepovulRevision} {items : List RepovulItem}
    {revs : List RepovulRevision} {c' : CacheItem}
    (hok : osv_group_to_repovul_group g allOrder solveOrder repo_url osv_group cache existing
      = .ok (items, revs, c'))
    (hwf : cacheHSWF cache)
    (hexist : ∀ r ∈ existing, r.repo_url = repo_url)
    (hitems : ∀ o ∈ osv_group, o.repo_url = repo_url) :
    (∀ it ∈ items, ∀ cm ∈ it.commits, ∃ r ∈ revs, r.repo_url = it.repo_url ∧ r.commit = cm)
    ∧ (∀ cm, (∃ r ∈ revs, r.commit = cm) ↔ ∃ it ∈ items, cm ∈ it.commits)
    ∧ (∃ (hs : List String) (cf : String → String),
        (∀ v ∈ hs, ∃ r ∈ revs, r.commit = cf v)
        ∧ ∀ it ∈ items, ∃ o ∈ filter_out_withdrawn (filter_out_no_affected_versions osv_group),
            it.id = o.id ∧
            it.commits = (hs.filter (fun v => decide (v ∈ o.affected_versions))).map cf) := by
  unfold osv_group_to_repovul_group at hok
  set G2 := filter_out_withdrawn (filter_out_no_affected_versions osv_group) with hG2
  have hG2sub : ∀ o ∈ G2, o ∈ osv_group := by
    intro o ho
    rw [hG2] at ho
    exact List.mem_of_mem_filter (List.mem_of_mem_filter ho)
  have hitems2 : ∀ o ∈ G2, o.repo_url = repo_url := fun o ho => hitems o (hG2sub o ho)
  by_cases hemp : G2.isEmpty = true
  · rw [if_pos hemp] at hok
    injection hok with h2
    obtain ⟨ha, hb, -⟩ := triple_eq h2
    clear h2
    subst ha
    subst hb
    refine ⟨by simp, fun cm => by simp, ⟨[], id, by simp, by simp⟩⟩
  · rw [if_neg hemp] at hok
    by_cases hval : validEnum allOrder (G2.flatMap fun o => o.affected_versions) = true
    · rw [if_pos hval] at hok
      cases hgv : get_versions_info_with_cache g allOrder false cache with
      | error e =>
        rw [hgv] at hok
        exact Except.noConfusion hok
      | ok res =>
        obtain ⟨rd, infos, c1⟩ := res
        rw [hgv] at hok
        dsimp only at hok
        have hwf1 : cacheHSWF c1 := by
          have hhs := (get_versions_info_ok_lookup hgv).2.2.2.2
          unfold cacheHSWF
          rw [hhs]
          exact hwf
        by_cases hunk : ((infos.filter fun p => decide (p.2 = none)).map
            (fun p => p.1)).isEmpty = true
        · rw [if_pos hunk] at hok
          have hsrc : ∀ q ∈ G2.map (fun o => (o.id, o.affected_versions)),
              ∀ v ∈ q.2, ∃ o ∈ G2, v ∈ o.affected_versions := by
            intro q hq v hv
            obtain ⟨o, ho, hoq⟩ := List.mem_map.mp hq
            refine ⟨o, ho, ?_⟩
            rw [← hoq] at hv
            exact hv
          obtain ⟨-, hc2, -, hc4, hc5⟩ := osv_group_core_ok_spec hok hwf1 hsrc hexist hitems2
          exact ⟨hc2, hc4, hc5⟩
        · rw [if_neg hunk] at hok
          by_cases hrem : (allOrder.filter fun v => decide (v ∉ (infos.filter
              fun p => decide (p.2 = none)).map (fun p => p.1))).isEmpty = true
          · rw [if_pos hrem] at hok
            injection hok with h2
            obtain ⟨ha, hb, -⟩ := triple_eq h2
            clear h2
            subst ha
            subst hb
            refine ⟨by simp, fun cm => by simp, ⟨[], id, by simp, by simp⟩⟩
          · rw [if_neg hrem] at hok
            have hsrc : ∀ q ∈ ((G2.map (fun o => (o.id, o.affected_versions))).map
                (fun q => (q.1, q.2.filter (fun v => decide (v ∉ (infos.filter
                  fun p => decide (p.2 = none)).map (fun p => p.1)))))).filter
                    (fun q => decide (q.2 ≠ [])),
                ∀ v ∈ q.2, ∃ o ∈ G2, v ∈ o.affected_versions := by
              intro q hq v hv
              have hq1 := List.mem_of_mem_filter hq
              obtain ⟨q0, hq0, hq0q⟩ := List.mem_map.mp hq1
              obtain ⟨o, ho, hoq⟩ := List.mem_map.mp hq0
              refine ⟨o, ho, ?_⟩
              rw [← hq0q] at hv
              dsimp only at hv
              have := List.mem_of_mem_filter hv
              rw [← hoq] at this
              exact this
            obtain ⟨-, hc2, -, hc4, hc5⟩ := osv_group_core_ok_spec hok hwf1 hsrc hexist
              hitems2
            exact ⟨hc2, hc4, hc5⟩
    · rw [if_neg hval] at hok
      exact Except.noConfusion hok

/-- C2: For every successful per-repo conversion, every commit listed in
an emitted Vulnerability Record's `commits` has a matching emitted
Revision Record with the same `repo_url` and that commit, and conversely
the set of commits of the emitted Revision Records equals the union of
the `commits` fields over all emitted Vulnerability Records of that
repo. -/
theorem C2_commits_revisions_consistent (g : RepoOracle) (allOrder solveOrder : List String)
    (repo_url : String) (osv_group : List OSVVulnerability) (cache : CacheItem)
    (existing : List RepovulRevision) (items : List RepovulItem)
    (revs : List RepovulRevision) (c' : CacheItem)
    (hok : osv_group_to_repovul_group g allOrder solveOrder repo_url osv_group cache existing
      = .ok (items, revs, c'))
    (hwf : cacheHSWF cache)
    (hexist : ∀ r ∈ existing, r.repo_url = repo_url)
    (hitems : ∀ o ∈ osv_group, o.repo_url = repo_url) :
    (∀ it ∈ items, ∀ cm ∈ it.commits, ∃ r ∈ revs, r.repo_url = it.repo_url ∧ r.commit = cm)
    ∧ (∀ cm, (∃ r ∈ revs, r.commit = cm) ↔ ∃ it ∈ items, cm ∈ it.commits) :=
  ⟨(osv_group_to_repovul_group_ok_spec hok hwf hexist hitems).1,
   (osv_group_to_repovul_group_ok_spec hok hwf hexist hitems).2.1⟩

/-- One OSV entry with a single affected version (the spec's concrete
scenario 1). -/
def osvSingle : OSVVulnerability :=
  OSVVulnerability.mk "CVE-1" 100 200 "d" none none false ["v1"] "R" []

/-- C2 witness: scenario 1 run — one entry, one version, one revision. -/
theorem C2_commits_revisions_consistent_witness :
    (osv_group_to_repovul_group oracleW ["v1"] ["v1"] "R" [osvSingle] (CacheItem.mk [] []) []
      = .ok ([RepovulItem.mk "CVE-1" 100 200 "d" none none "R" [] ["c1"]],
          [RepovulRevision.mk "c1" "R" 5 [("Py", 7)] 7],
          CacheItem.mk [("v1", some ("c1", 5))] [(HSKey.mk [["v1"]] [("v1", 5)], ["v1"])]))
    ∧ ((∀ it ∈ [RepovulItem.mk "CVE-1" 100 200 "d" none none "R" [] ["c1"]],
          ∀ cm ∈ it.commits, ∃ r ∈ [RepovulRevision.mk "c1" "R" 5 [("Py", 7)] 7],
            r.repo_url = it.repo_url ∧ r.commit = cm)
      ∧ (∀ cm, (∃ r ∈ [RepovulRevision.mk "c1" "R" 5 [("Py", 7)] 7], r.commit = cm) ↔
          ∃ it ∈ [RepovulItem.mk "CVE-1" 100 200 "d" none none "R" [] ["c1"]],
            cm ∈ it.commits)) :=
  ⟨by decide,
    C2_commits_revisions_consistent oracleW ["v1"] ["v1"] "R" [osvSingle]
      (CacheItem.mk [] []) []
      [RepovulItem.mk "CVE-1" 100 200 "d" none none "R" [] ["c1"]]
      [RepovulRevision.mk "c1" "R" 5 [("Py", 7)] 7]
      (CacheItem.mk [("v1", some ("c1", 5))] [(HSKey.mk [["v1"]] [("v1", 5)], ["v1"])])
      (by decide) (fun k s h => absurd h (by simp)) (by simp) (by decide)⟩

/-- Two tags on the same commit: `v1` and `v2` both resolve to `c1`. -/
def oracleDup : RepoOracle :=
  RepoOracle.mk
    (fun v => if v = "v1" then some ("c1", 5) else if v = "v2" then some ("c1", 6) else none)
    CloneOutcome.ok (fun c => if c = "c1" then some ([("Py", 7)], 7) else none)

/-- Entry affected only by `v1`. -/
def osvD1 : OSVVulnerability := OSVVulnerability.mk "D1" 1 1 "d" none none false ["v1"] "R" []

/-- Entry affected only by `v2`. -/
def osvD2 : OSVVulnerability := OSVVulnerability.mk "D2" 1 1 "d" none none false ["v2"] "R" []

/-- Entry affected by both `v1` and `v2`. -/
def osvD3 : OSVVulnerability :=
  OSVVulnerability.mk "D3" 1 1 "d" none none false ["v1", "v2"] "R" []

/-- C7 counterexample: the emitted `commits` field is not a sorted,
duplicate-free set.  With two distinct hitting-set versions resolving to
the same commit, the entry affected by both gets `commits = [c1, c1]`:
the converter maps `concerned_versions` through version→commit without
deduplicating or sorting (sorting happens only in `to_dict` at JSON
export). -/
theorem C7_counterexample_commits_duplicated :
    (osv_group_to_repovul_group oracleDup ["v1", "v2"] ["v1", "v2"] "R"
        [osvD1, osvD2, osvD3] (CacheItem.mk [] []) []).map
      (fun t => t.1.map (fun it => it.commits)) = .ok [["c1"], ["c1"], ["c1", "c1"]]
    ∧ ¬ (["c1", "c1"] : List String).Nodup := by
  constructor
  · decide
  · decide

/-- C7 (amended): for every emitted Vulnerability Record, its `commits`
field is the list — in hitting-set iteration order, neither sorted nor
deduplicated — of the version→commit images of exactly those hitting-set
versions that appear among the entry's affected versions (each image
being the commit of an emitted Revision Record). -/
theorem C7_commits_are_concerned_hitting_set_versions (g : RepoOracle)
    (allOrder solveOrder : List String) (repo_url : String)
    (osv_group : List OSVVulnerability) (cache : CacheItem)
    (existing : List RepovulRevision) (items : List RepovulItem)
    (revs : List RepovulRevision) (c' : CacheItem)
    (hok : osv_group_to_repovul_group g allOrder solveOrder repo_url osv_group cache existing
      = .ok (items, revs, c'))
    (hwf : cacheHSWF cache)
    (hexist : ∀ r ∈ existing, r.repo_url = repo_url)
    (hitems : ∀ o ∈ osv_group, o.repo_url = repo_url) :
    ∃ (hs : List String) (cf : String → String),
      (∀ v ∈ hs, ∃ r ∈ revs, r.commit = cf v)
      ∧ ∀ it ∈ items, ∃ o ∈ filter_out_withdrawn (filter_out_no_affected_versions osv_group),
          it.id = o.id ∧
          it.commits = (hs.filter (fun v => decide (v ∈ o.affected_versions))).map cf :=
  (osv_group_to_repovul_group_ok_spec hok hwf hexist hitems).2.2

/-- C7 witness: the duplicate-commit scenario instantiated. -/
theorem C7_commits_are_concerned_hitting_set_versions_witness :
    (osv_group_to_repovul_group oracleDup ["v1", "v2"] ["v1", "v2"] "R"
        [osvD1, osvD2, osvD3] (CacheItem.mk [] []) []
      = .ok ([RepovulItem.mk "D1" 1 1 "d" none none "R" [] ["c1"],
              RepovulItem.mk "D2" 1 1 "d" none none "R" [] ["c1"],
              RepovulItem.mk "D3" 1 1 "d" none none "R" [] ["c1", "c1"]],
          [RepovulRevision.mk "c1" "R" 5 [("Py", 7)] 7,
           RepovulRevision.mk "c1" "R" 6 [("Py", 7)] 7],
          CacheItem.mk [("v2", some ("c1", 6)), ("v1", some ("c1", 5))]
            [(HSKey.mk [["v1"], ["v1", "v2"], ["v2"]] [("v1", 5), ("v2", 6)],
              ["v1", "v2"])]))
    ∧ (∃ (hs : List String) (cf : String → String),
        (∀ v ∈ hs, ∃ r ∈ [RepovulRevision.mk "c1" "R" 5 [("Py", 7)] 7,
            RepovulRevision.mk "c1" "R" 6 [("Py", 7)] 7], r.commit = cf v)
        ∧ ∀ it ∈ [RepovulItem.mk "D1" 1 1 "d" none none "R" [] ["c1"],
              RepovulItem.mk "D2" 1 1 "d" none none "R" [] ["c1"],
              RepovulItem.mk "D3" 1 1 "d" none none "R" [] ["c1", "c1"]],
            ∃ o ∈ filter_out_withdrawn (filter_out_no_affected_versions
              [osvD1, osvD2, osvD3]),
              it.id = o.id ∧
              it.commits = (hs.filter (fun v => decide (v ∈ o.affected_versions))).map cf) :=
  ⟨by decide,
    C7_commits_are_concerned_hitting_set_versions oracleDup ["v1", "v2"] ["v1", "v2"] "R"
      [osvD1, osvD2, osvD3] (CacheItem.mk [] []) []
      [RepovulItem.mk "D1" 1 1 "d" none none "R" [] ["c1"],
       RepovulItem.mk "D2" 1 1 "d" none none "R" [] ["c1"],
       RepovulItem.mk "D3" 1 1 "d" none none "R" [] ["c1", "c1"]]
      [RepovulRevision.mk "c1" "R" 5 [("Py", 7)] 7,
       RepovulRevision.mk "c1" "R" 6 [("Py", 7)] 7]
      (CacheItem.mk [("v2", some ("c1", 6)), ("v1", some ("c1", 5))]
        [(HSKey.mk [["v1"], ["v1", "v2"], ["v2"]] [("v1", 5), ("v2", 6)], ["v1", "v2"])])
      (by decide) (fun k s h => absurd h (by simp)) (by simp) (by decide)⟩

theorem survivors_idem (l : List OSVVulnerability) :
    filter_out_withdrawn (filter_out_no_affected_versions
      (filter_out_withdrawn (filter_out_no_affected_versions l))) =
    filter_out_withdrawn (filter_out_no_affected_versions l) := by
  unfold filter_out_withdrawn filter_out_no_affected_versions
  rw [List.filter_filter, List.filter_filter, List.filter_filter, List.filter_filter]
  apply List.filter_congr
  intro o ho
  cases hw : (!o.withdrawn) <;> cases ha : (decide (o.affected_versions ≠ [])) <;>
    simp [hw, ha]

theorem get_version_info_clone_ok {g : RepoOracle} (hclone : g.clone = CloneOutcome.ok)
    (version : String) (repoDir : Bool) (cache : CacheItem) :
    ∃ rd info c1, get_version_info_with_cache g version repoDir cache = .ok (rd, info, c1) := by
  unfold get_version_info_with_cache
  cases hc : alookup cache.versions_info version with
  | some info => exact ⟨repoDir, info, cache, rfl⟩
  | none =>
    have hcl : cloneCheck g repoDir = .ok () := by
      unfold cloneCheck
      by_cases hr : repoDir = true
      · rw [if_pos hr]
      · rw [if_neg hr, hclone]
    rw [hcl]
    exact ⟨true, g.resolve version, _, rfl⟩

theorem get_versions_info_clone_ok {g : RepoOracle} (hclone : g.clone = CloneOutcome.ok)
    (versions : List String) (repoDir : Bool) (cache : CacheItem) :
    ∃ rd infos c1, get_versions_info_with_cache g versions repoDir cache
      = .ok (rd, infos, c1) := by
  induction versions generalizing repoDir cache with
  | nil => exact ⟨repoDir, [], cache, rfl⟩
  | cons v rest ih =>
    obtain ⟨rd1, info1, c1, h1⟩ := get_version_info_clone_ok hclone v repoDir cache
    obtain ⟨rd2, infos2, c2, h2⟩ := ih rd1 c1
    refine ⟨rd2, (v, info1) :: infos2, c2, ?_⟩
    unfold get_versions_info_with_cache
    rw [h1]
    dsimp only
    rw [h2]

/-- C5: For every OSV group, entries marked withdrawn and entries with no
affected versions are excluded before any further processing (converting
the pre-filtered group gives the same result as converting the original);
if no entries survive this filtering the conversion returns empty record
and revision lists with status OK and an unchanged cache; and if every
affected version of every surviving entry is unresolved by git (clone
succeeding; git may well resolve versions outside the group), the
conversion returns empty record and revision lists with status OK —
unresolved versions are filtered out, never treated as errors. -/
theorem C5_filtering_and_unresolved_ok (g : RepoOracle) (allOrder solveOrder : List String)
    (repo_url : String) (osv_group : List OSVVulnerability) (cache : CacheItem)
    (existing : List RepovulRevision) :
    (osv_group_to_repovul_group g allOrder solveOrder repo_url
        (filter_out_withdrawn (filter_out_no_affected_versions osv_group)) cache existing
      = osv_group_to_repovul_group g allOrder solveOrder repo_url osv_group cache existing)
    ∧ ((∀ o ∈ osv_group, o.withdrawn = true ∨ o.affected_versions = []) →
        convert_one_inner g allOrder solveOrder repo_url osv_group cache existing
          = .ok ([], [], cache, .OK))
    ∧ (g.clone = CloneOutcome.ok →
        validEnum allOrder ((filter_out_withdrawn (filter_out_no_affected_versions
          osv_group)).flatMap (fun o => o.affected_versions)) = true →
        (∀ v ∈ allOrder, (alookup cache.versions_info v).getD (g.resolve v) = none) →
        ∃ c2, convert_one_inner g allOrder solveOrder repo_url osv_group cache existing
          = .ok ([], [], c2, .OK)) := by
  refine ⟨?_, ?_, ?_⟩
  · unfold osv_group_to_repovul_group
    rw [survivors_idem]
  · intro hall
    have hG2 : filter_out_withdrawn (filter_out_no_affected_versions osv_group) = [] := by
      unfold filter_out_withdrawn filter_out_no_affected_versions
      rw [List.filter_filter]
      rw [List.filter_eq_nil_iff]
      intro o ho
      rcases hall o ho with h | h
      · simp [h]
      · simp [h]
    unfold convert_one_inner osv_group_to_repovul_group
    rw [hG2]
    rfl
  · intro hclone hval hunres
    set G2 := filter_out_withdrawn (filter_out_no_affected_versions osv_group) with hG2
    by_cases hemp : G2.isEmpty = true
    · refine ⟨cache, ?_⟩
      unfold convert_one_inner osv_group_to_repovul_group
      rw [← hG2, if_pos hemp]
    · obtain ⟨rd, infos, c1, hgv⟩ := get_versions_info_clone_ok hclone allOrder false cache
      obtain ⟨-, hkeys, hagree, hval4, -⟩ := get_versions_info_ok_lookup hgv
      have hinfos_none : ∀ p ∈ infos, p.2 = (none : Option (String × Int)) := by
        intro p hp
        have h1 := hagree p hp
        have hp1 : p.1 ∈ allOrder := by
          rw [← hkeys]
          exact List.mem_map_of_mem Prod.fst hp
        have h2 := hval4 p.1 hp1
        rw [hunres p.1 hp1] at h2
        rw [h1] at h2
        injection h2
      have hunkeq : (infos.filter (fun p => decide (p.2 = none))).map (fun p => p.1)
          = allOrder := by
        rw [List.filter_eq_self.mpr (fun p hp => by
          rw [decide_eq_true_iff]
          exact hinfos_none p hp)]
        rw [hkeys]
      have hordne : allOrder ≠ [] := by
        intro hnil
        rw [List.isEmpty_iff] at hemp
        cases hG2e : G2 with
        | nil => exact hemp hG2e
        | cons o rest =>
          have ho : o ∈ G2 := by rw [hG2e]; exact List.mem_cons_self _ _
          have hoaff : o.affected_versions ≠ [] := by
            rw [hG2] at ho
            have := List.mem_of_mem_filter (List.mem_filter.mp ho).1
            have h2 := (List.mem_filter.mp (List.mem_filter.mp ho).1).2
            rw [decide_eq_true_iff] at h2
            exact h2
          obtain ⟨v, hv⟩ := List.exists_mem_of_ne_nil o.affected_versions hoaff
          have hvpool : v ∈ G2.flatMap (fun o => o.affected_versions) := by
            rw [List.mem_flatMap]
            exact ⟨o, ho, hv⟩
          obtain ⟨-, -, hpo⟩ := (validEnum_iff _ _).mp hval
          have := hpo v hvpool
          rw [hnil] at this
          simp at this
      refine ⟨c1, ?_⟩
      unfold convert_one_inner osv_group_to_repovul_group
      rw [← hG2, if_neg hemp, if_pos hval, hgv]
      dsimp only
      rw [hunkeq]
      have hunkne : allOrder.isEmpty = false := by
        cases allOrder with
        | nil => exact absurd rfl hordne
        | cons a t => rfl
      rw [if_neg (by rw [hunkne]; exact Bool.false_ne_true)]
      have hremnil : allOrder.filter (fun v => decide (v ∉ allOrder)) = [] := by
        rw [List.filter_eq_nil_iff]
        intro a ha
        simp [ha]
      rw [hremnil]
      rfl

/-- Oracle whose git resolves no version at all (clone succeeds). -/
def oracleNone : RepoOracle :=
  RepoOracle.mk (fun _ => none) CloneOutcome.ok (fun _ => none)

/-- A withdrawn entry. -/
def osvW : OSVVulnerability :=
  OSVVulnerability.mk "W" 1 1 "d" none none true ["v9"] "R" []

/-- An entry whose only affected version is unknown to git. -/
def osvU : OSVVulnerability :=
  OSVVulnerability.mk "U" 1 1 "d" none none false ["vX"] "R" []

/-- C5 witness: a fully-withdrawn group returns empty outputs, status OK,
cache unchanged; a group whose only affected version `vX` is unresolved
also returns empty outputs with status OK, even against the oracle
`oracleW` whose git does resolve the unrelated tag `v1`; pre-filtering
the group does not change the conversion. -/
theorem C5_filtering_and_unresolved_ok_witness :
    (convert_one_inner oracleNone [] [] "R" [osvW] (CacheItem.mk [] []) []
      = .ok ([], [], CacheItem.mk [] [], .OK))
    ∧ (∃ c2, convert_one_inner oracleW ["vX"] [] "R" [osvU] (CacheItem.mk [] []) []
      = .ok ([], [], c2, .OK))
    ∧ (osv_group_to_repovul_group oracleNone ["vX"] [] "R"
        (filter_out_withdrawn (filter_out_no_affected_versions [osvU]))
        (CacheItem.mk [] []) []
      = osv_group_to_repovul_group oracleNone ["vX"] [] "R" [osvU]
        (CacheItem.mk [] []) []) :=
  ⟨(C5_filtering_and_unresolved_ok oracleNone [] [] "R" [osvW]
      (CacheItem.mk [] []) []).2.1 (by decide),
   (C5_filtering_and_unresolved_ok oracleW ["vX"] [] "R" [osvU]
      (CacheItem.mk [] []) []).2.2 rfl (by decide) (by decide),
   (C5_filtering_and_unresolved_ok oracleNone ["vX"] [] "R" [osvU]
      (CacheItem.mk [] []) []).1⟩

theorem shswc_versions_info {order : List String} {lists : List (List String)}
    {vd : List (String × Int)} {cache : CacheItem} {sol : List String} {cache' : CacheItem}
    (h : solve_hitting_set_with_cache order lists vd cache = some (sol, cache')) :
    cache'.versions_info = cache.versions_info := by
  unfold solve_hitting_set_with_cache at h
  cases hk : klookup cache.hitting_set_results (argumentsKey lists vd) with
  | some s =>
    rw [hk] at h
    injection h with h2
    have hcc : cache = cache' := congrArg Prod.snd h2
    rw [← hcc]
  | none =>
    rw [hk] at h
    cases hs : solve_hitting_set order lists vd with
    | none =>
      rw [hs] at h
      exact Option.noConfusion h
    | some H =>
      rw [hs] at h
      dsimp only at h
      injection h with h2
      have hcc := congrArg Prod.snd h2
      dsimp only at hcc
      rw [← hcc]

theorem osv_group_core_error_versions_info {g : RepoOracle} {solveOrder : List String}
    {repo_url : String} {g2 : List OSVVulnerability}
    {byItem2 : List (String × List String)}
    {versions_info : List (String × Option (String × Int))} {repoDir : Bool}
    {existing : List RepovulRevision} {cache1 : CacheItem} {e : ConvErr} {c2 : CacheItem}
    (herr : osv_group_core g solveOrder repo_url g2 byItem2 versions_info repoDir existing
      cache1 = .error (e, c2)) :
    c2.versions_info = cache1.versions_info := by
  unfold osv_group_core at herr
  dsimp only at herr
  cases hsol : solve_hitting_set_with_cache solveOrder (byItem2.map (fun q => q.2))
      (versions_info.filterMap (fun p => p.2.map (fun ci => (p.1, ci.2)))) cache1 with
  | none =>
    rw [hsol] at herr
    injection herr with h2
    have := congrArg Prod.snd h2
    dsimp only at this
    rw [← this]
  | some sc =>
    obtain ⟨hs, cache2'⟩ := sc
    rw [hsol] at herr
    dsimp only at herr
    have hvi := shswc_versions_info hsol
    cases hrev : versions_to_repovul_revisions_with_cache g hs versions_info repo_url
        repoDir existing with
    | error e1 =>
      rw [hrev] at herr
      injection herr with h2
      have := congrArg Prod.snd h2
      dsimp only at this
      rw [← this]
      exact hvi
    | ok rr =>
      obtain ⟨rd2, revMap⟩ := rr
      rw [hrev] at herr
      dsimp only at herr
      cases hemit : emitItems g2 hs revMap with
      | error e1 =>
        rw [hemit] at herr
        injection herr with h2
        have := congrArg Prod.snd h2
        dsimp only at this
        rw [← this]
        exact hvi
      | ok items' =>
        rw [hemit] at herr
        exact Except.noConfusion herr

theorem osv_group_error_extends {g : RepoOracle} {allOrder solveOrder : List String}
    {repo_url : String} {osv_group : List OSVVulnerability} {cache : CacheItem}
    {existing : List RepovulRevision} {e : ConvErr} {c2 : CacheItem}
    (herr : osv_group_to_repovul_group g allOrder solveOrder repo_url osv_group cache
      existing = .error (e, c2)) :
    ∀ x i, alookup cache.versions_info x = some i → alookup c2.versions_info x = some i := by
  unfold osv_group_to_repovul_group at herr
  set G2 := filter_out_withdrawn (filter_out_no_affected_versions osv_group) with hG2
  by_cases hemp : G2.isEmpty = true
  · rw [if_pos hemp] at herr
    exact Except.noConfusion herr
  · rw [if_neg hemp] at herr
    by_cases hval : validEnum allOrder (G2.flatMap fun o => o.affected_versions) = true
    · rw [if_pos hval] at herr
      cases hgv : get_versions_info_with_cache g allOrder false cache with
      | error e1 =>
        rw [hgv] at herr
        injection herr with h2
        obtain ⟨e1a, e1c⟩ := e1
        injection h2 with h2a h2b
        rw [← h2b]
        exact (get_versions_info_error_extends hgv).1
      | ok res =>
        obtain ⟨rd, infos, c1⟩ := res
        rw [hgv] at herr
        dsimp only at herr
        have hext1 := (get_versions_info_ok_lookup hgv).1
        by_cases hunk : ((infos.filter fun p => decide (p.2 = none)).map
            (fun p => p.1)).isEmpty = true
        · rw [if_pos hunk] at herr
          have := osv_group_core_error_versions_info herr
          intro x i hx
          rw [this]
          exact hext1 x i hx
        · rw [if_neg hunk] at herr
          by_cases hrem : (allOrder.filter fun v => decide (v ∉ (infos.filter
              fun p => decide (p.2 = none)).map (fun p => p.1))).isEmpty = true
          · rw [if_pos hrem] at herr
            exact Except.noConfusion herr
          · rw [if_neg hrem] at herr
            have := osv_group_core_error_versions_info herr
            intro x i hx
            rw [this]
            exact hext1 x i hx
    · rw [if_neg hval] at herr
      injection herr with h2
      injection h2 with h2a h2b
      rw [← h2b]
      exact fun x i hx => hx

/-- C4: If `RepoNotFoundError`, `GitRuntimeError`, or `LinguistError` is
raised during a repo's conversion, `convert_one_inner` returns empty
record and revision lists together with the respective status code
`REPO_NOT_FOUND`, `GIT_RUNTIME_ERROR`, or `LINGUIST_ERROR`, and the
returned cache item is exactly the (in-place mutated) cache at the raise
point, so it still contains every version resolution recorded before
the failure, pre-existing entries included. -/
theorem C4_gateway_errors_empty_output_with_cache (g : RepoOracle)
    (allOrder solveOrder : List String) (repo_url : String)
    (osv_group : List OSVVulnerability) (cache : CacheItem)
    (existing : List RepovulRevision) (e : ConvErr) (c2 : CacheItem)
    (herr : osv_group_to_repovul_group g allOrder solveOrder repo_url osv_group cache
      existing = .error (e, c2)) :
    (∀ x i, alookup cache.versions_info x = some i → alookup c2.versions_info x = some i)
    ∧ (e = ConvErr.repoNotFound →
        convert_one_inner g allOrder solveOrder repo_url osv_group cache existing
          = .ok ([], [], c2, .REPO_NOT_FOUND))
    ∧ (e = ConvErr.gitRuntime →
        convert_one_inner g allOrder solveOrder repo_url osv_group cache existing
          = .ok ([], [], c2, .GIT_RUNTIME_ERROR))
    ∧ (e = ConvErr.linguist →
        convert_one_inner g allOrder solveOrder repo_url osv_group cache existing
          = .ok ([], [], c2, .LINGUIST_ERROR)) := by
  refine ⟨osv_group_error_extends herr, ?_, ?_, ?_⟩
  · intro he
    subst he
    unfold convert_one_inner
    rw [herr]
  · intro he
    subst he
    unfold convert_one_inner
    rw [herr]
  · intro he
    subst he
    unfold convert_one_inner
    rw [herr]

/-- Oracle resolving `v1` but whose linguist always fails. -/
def oracleLing : RepoOracle :=
  RepoOracle.mk (fun v => if v = "v1" then some ("c1", 5) else none) CloneOutcome.ok
    (fun _ => none)

/-- C4 witness: a `LinguistError` raised after `v1` was resolved —
`convert_one_inner` reports `LINGUIST_ERROR` with empty outputs, and the
returned cache contains the resolution of `v1` recorded before the
failure. -/
theorem C4_gateway_errors_empty_output_with_cache_witness :
    (osv_group_to_repovul_group oracleLing ["v1"] ["v1"] "R" [osvSingle]
        (CacheItem.mk [("v0", some ("c0", 1))] []) []
      = .error (ConvErr.linguist,
          CacheItem.mk [("v1", some ("c1", 5)), ("v0", some ("c0", 1))]
            [(HSKey.mk [["v1"]] [("v1", 5)], ["v1"])]))
    ∧ (∀ x i, alookup (CacheItem.mk [("v0", some ("c0", 1))] []).versions_info x = some i →
        alookup (CacheItem.mk [("v1", some ("c1", 5)), ("v0", some ("c0", 1))]
          [(HSKey.mk [["v1"]] [("v1", 5)], ["v1"])]).versions_info x = some i)
    ∧ (convert_one_inner oracleLing ["v1"] ["v1"] "R" [osvSingle]
        (CacheItem.mk [("v0", some ("c0", 1))] []) []
      = .ok ([], [], CacheItem.mk [("v1", some ("c1", 5)), ("v0", some ("c0", 1))]
          [(HSKey.mk [["v1"]] [("v1", 5)], ["v1"])], .LINGUIST_ERROR)) :=
  ⟨by decide,
   (C4_gateway_errors_empty_output_with_cache oracleLing ["v1"] ["v1"] "R" [osvSingle]
      (CacheItem.mk [("v0", some ("c0", 1))] []) [] ConvErr.linguist
      (CacheItem.mk [("v1", some ("c1", 5)), ("v0", some ("c0", 1))]
        [(HSKey.mk [["v1"]] [("v1", 5)], ["v1"])]) (by decide)).1,
   (C4_gateway_errors_empty_output_with_cache oracleLing ["v1"] ["v1"] "R" [osvSingle]
      (CacheItem.mk [("v0", some ("c0", 1))] []) [] ConvErr.linguist
      (CacheItem.mk [("v1", some ("c1", 5)), ("v0", some ("c0", 1))]
        [(HSKey.mk [["v1"]] [("v1", 5)], ["v1"])]) (by decide)).2.2.2 rfl⟩

/-! ### The record store write step (`converter.py`, `convert_list` lines 130-148) -/

/-- The two tables of the record store (`RepovulItem` PK `id`,
`RepovulRevision` PK `(repo_url, commit)`). -/
structure RecordDB where
  vulnerabilities : List RepovulItem
  revisions : List RepovulRevision
deriving DecidableEq

/-- Serialized form of a revision record, with the fixed field order of
`RepovulRevision.to_dict` (models/repovul.py lines 45-54); the
`datetime`/ISO-8601 round-trip is modeled by keeping the timestamp. -/
structure RevisionDict where
  commit : String
  repo_url : String
  date : Int
  languages : List (String × Int)
  size : Int
deriving DecidableEq

/-- `RepovulRevision.to_dict` (models/repovul.py lines 45-54). -/
def RepovulRevision.to_dict (r : RepovulRevision) : RevisionDict :=
  RevisionDict.mk r.commit r.repo_url r.date r.languages r.size

/-- Parsing a serialized revision back into a record
(`RepovulRevision(**revision.to_dict())` in converter.py line 144, and
`RepovulRevision.from_file` for the JSON import). -/
def revisionFromDict (d : RevisionDict) : RepovulRevision :=
  RepovulRevision.mk d.commit d.repo_url d.date d.languages d.size

theorem revision_roundtrip (r : RepovulRevision) :
    revisionFromDict (RepovulRevision.to_dict r) = r := rfl

/-- The driver's per-repo write transaction (converter.py lines 130-148):
within one session, delete all vulnerability rows with this `repo_url`,
delete all revision rows with this `repo_url`, insert the produced
vulnerabilities, insert the produced revisions (rebuilt through
`to_dict`, line 144), and commit.  The whole block is a single committed
transaction in the source; its net effect is this one state
transition. -/
def convert_list_write_step (db : RecordDB) (repo_url : String)
    (items : List RepovulItem) (revs : List RepovulRevision) : RecordDB :=
  RecordDB.mk
    (db.vulnerabilities.filter (fun it => decide (it.repo_url ≠ repo_url)) ++ items)
    (db.revisions.filter (fun r => decide (r.repo_url ≠ repo_url))
      ++ revs.map (fun r => revisionFromDict r.to_dict))

/-- C3: When the driver processes a completed repo, it deletes all
vulnerability rows and all revision rows whose `repo_url` equals the
repo's and inserts exactly the records produced by that repo's
conversion, in one committed transaction (one atomic state transition
here); rows of every other `repo_url` are untouched. -/
theorem C3_per_repo_write_frame_and_replacement (db : RecordDB) (repo_url : String)
    (items : List RepovulItem) (revs : List RepovulRevision)
    (hitems : ∀ it ∈ items, it.repo_url = repo_url)
    (hrevs : ∀ r ∈ revs, r.repo_url = repo_url) :
    (∀ it : RepovulItem, it.repo_url ≠ repo_url →
      (it ∈ (convert_list_write_step db repo_url items revs).vulnerabilities ↔
        it ∈ db.vulnerabilities))
    ∧ (∀ r : RepovulRevision, r.repo_url ≠ repo_url →
      (r ∈ (convert_list_write_step db repo_url items revs).revisions ↔
        r ∈ db.revisions))
    ∧ ((convert_list_write_step db repo_url items revs).vulnerabilities.filter
        (fun it => decide (it.repo_url = repo_url)) = items)
    ∧ ((convert_list_write_step db repo_url items revs).revisions.filter
        (fun r => decide (r.repo_url = repo_url)) = revs) := by
  have hmap : revs.map (fun r => revisionFromDict r.to_dict) = revs := by
    have heq : (fun r => revisionFromDict r.to_dict) = (id : RepovulRevision → RepovulRevision) :=
      funext fun r => rfl
    rw [heq, List.map_id]
  refine ⟨?_, ?_, ?_, ?_⟩
  · intro it hne
    unfold convert_list_write_step
    simp only [List.mem_append, List.mem_filter, decide_eq_true_iff]
    constructor
    · rintro (⟨h1, -⟩ | h1)
      · exact h1
      · exact absurd (hitems it h1) hne
    · intro h1
      exact Or.inl ⟨h1, hne⟩
  · intro r hne
    unfold convert_list_write_step
    rw [hmap]
    simp only [List.mem_append, List.mem_filter, decide_eq_true_iff]
    constructor
    · rintro (⟨h1, -⟩ | h1)
      · exact h1
      · exact absurd (hrevs r h1) hne
    · intro h1
      exact Or.inl ⟨h1, hne⟩
  · unfold convert_list_write_step
    rw [List.filter_append, List.filter_filter]
    rw [show List.filter (fun a => decide (a.repo_url = repo_url)
        && decide (a.repo_url ≠ repo_url)) db.vulnerabilities = [] from
      List.filter_eq_nil_iff.mpr (fun a ha => by
        by_cases h : a.repo_url = repo_url <;> simp [h])]
    rw [List.nil_append]
    exact List.filter_eq_self.mpr (fun a ha => by
      rw [decide_eq_true_iff]
      exact hitems a ha)
  · unfold convert_list_write_step
    rw [hmap, List.filter_append, List.filter_filter]
    rw [show List.filter (fun a => decide (a.repo_url = repo_url)
        && decide (a.repo_url ≠ repo_url)) db.revisions = [] from
      List.filter_eq_nil_iff.mpr (fun a ha => by
        by_cases h : a.repo_url = repo_url <;> simp [h])]
    rw [List.nil_append]
    exact List.filter_eq_self.mpr (fun a ha => by
      rw [decide_eq_true_iff]
      exact hrevs a ha)

/-- C3 witness: replacing repo `R`'s rows in a store that also holds a
row of repo `S` keeps `S`'s row and installs exactly the new rows. -/
theorem C3_per_repo_write_frame_and_replacement_witness :
    ((∀ it ∈ [RepovulItem.mk "CVE-1" 100 200 "d" none none "R" [] ["c1"]],
        it.repo_url = "R")
    ∧ (∀ r ∈ [RepovulRevision.mk "c1" "R" 5 [("Py", 7)] 7], r.repo_url = "R"))
    ∧ ((∀ it : RepovulItem, it.repo_url ≠ "R" →
        (it ∈ (convert_list_write_step
            (RecordDB.mk [RepovulItem.mk "old" 1 1 "d" none none "R" [] ["c9"],
                          RepovulItem.mk "other" 1 1 "d" none none "S" [] ["c2"]]
              [RepovulRevision.mk "c9" "R" 1 [] 0, RepovulRevision.mk "c2" "S" 1 [] 0])
            "R" [RepovulItem.mk "CVE-1" 100 200 "d" none none "R" [] ["c1"]]
            [RepovulRevision.mk "c1" "R" 5 [("Py", 7)] 7]).vulnerabilities ↔
          it ∈ [RepovulItem.mk "old" 1 1 "d" none none "R" [] ["c9"],
                RepovulItem.mk "other" 1 1 "d" none none "S" [] ["c2"]]))
    ∧ (∀ r : RepovulRevision, r.repo_url ≠ "R" →
        (r ∈ (convert_list_write_step
            (RecordDB.mk [RepovulItem.mk "old" 1 1 "d" none none "R" [] ["c9"],
                          RepovulItem.mk "other" 1 1 "d" none none "S" [] ["c2"]]
              [RepovulRevision.mk "c9" "R" 1 [] 0, RepovulRevision.mk "c2" "S" 1 [] 0])
            "R" [RepovulItem.mk "CVE-1" 100 200 "d" none none "R" [] ["c1"]]
            [RepovulRevision.mk "c1" "R" 5 [("Py", 7)] 7]).revisions ↔
          r ∈ [RepovulRevision.mk "c9" "R" 1 [] 0, RepovulRevision.mk "c2" "S" 1 [] 0]))
    ∧ ((convert_list_write_step
            (RecordDB.mk [RepovulItem.mk "old" 1 1 "d" none none "R" [] ["c9"],
                          RepovulItem.mk "other" 1 1 "d" none none "S" [] ["c2"]]
              [RepovulRevision.mk "c9" "R" 1 [] 0, RepovulRevision.mk "c2" "S" 1 [] 0])
            "R" [RepovulItem.mk "CVE-1" 100 200 "d" none none "R" [] ["c1"]]
            [RepovulRevision.mk "c1" "R" 5 [("Py", 7)] 7]).vulnerabilities.filter
          (fun it => decide (it.repo_url = "R"))
        = [RepovulItem.mk "CVE-1" 100 200 "d" none none "R" [] ["c1"]])
    ∧ ((convert_list_write_step
            (RecordDB.mk [RepovulItem.mk "old" 1 1 "d" none none "R" [] ["c9"],
                          RepovulItem.mk "other" 1 1 "d" none none "S" [] ["c2"]]
              [RepovulRevision.mk "c9" "R" 1 [] 0, RepovulRevision.mk "c2" "S" 1 [] 0])
            "R" [RepovulItem.mk "CVE-1" 100 200 "d" none none "R" [] ["c1"]]
            [RepovulRevision.mk "c1" "R" 5 [("Py", 7)] 7]).revisions.filter
          (fun r => decide (r.repo_url = "R"))
        = [RepovulRevision.mk "c1" "R" 5 [("Py", 7)] 7])) :=
  ⟨⟨by decide, by decide⟩,
    C3_per_repo_write_frame_and_replacement
      (RecordDB.mk [RepovulItem.mk "old" 1 1 "d" none none "R" [] ["c9"],
                    RepovulItem.mk "other" 1 1 "d" none none "S" [] ["c2"]]
        [RepovulRevision.mk "c9" "R" 1 [] 0, RepovulRevision.mk "c2" "S" 1 [] 0])
      "R" [RepovulItem.mk "CVE-1" 100 200 "d" none none "R" [] ["c1"]]
      [RepovulRevision.mk "c1" "R" 5 [("Py", 7)] 7] (by decide) (by decide)⟩

/-! ### JSON flat-file export / import (`__main__.py` lines 151-195) -/

/-- Serialized form of a vulnerability record, with the fixed field order
of `RepovulItem.to_dict` (models/repovul.py lines 94-114): optional
fields omitted when null, `cwes` and `commits` sorted. -/
structure ItemDict where
  id : String
  published : Int
  modified : Int
  details : String
  summary : Option String
  severity : Option String
  repo_url : String
  cwes : List String
  commits : List String
deriving DecidableEq

/-- `RepovulItem.to_dict` (models/repovul.py lines 94-114): note
`sorted(self.cwes)` and `sorted(self.commits)`. -/
def RepovulItem.to_dict (it : RepovulItem) : ItemDict :=
  ItemDict.mk it.id it.published it.modified it.details it.summary it.severity it.repo_url
    (sortStrings it.cwes) (sortStrings it.commits)

/-- Parsing a serialized vulnerability record back
(`RepovulItem.from_file`, models/repovul.py lines 89-92). -/
def itemFromDict (d : ItemDict) : RepovulItem :=
  RepovulItem.mk d.id d.published d.modified d.details d.summary d.severity d.repo_url
    d.cwes d.commits

/-- Drop everything up to and including the first `://`. -/
def afterSchemeAux : List Char → Option (List Char)
  | ':' :: '/' :: '/' :: rest => some rest
  | _ :: t => afterSchemeAux t
  | [] => none

/-- Repo name used for export directories.

Modelled from the spec: `repo_url_to_name` is not in the provided
sources; per the spec it is "derived from the URL (host + path
components joined by a separator, with scheme stripped)". -/
def repo_url_to_name (u : String) : String :=
  String.mk (((afterSchemeAux u.data).getD u.data).map (fun c => if c = '/' then '_' else c))

/-- Sequential file writes: a later write to the same path overwrites the
earlier file. -/
def fsWriteAll {δ : Type} (l : List ((String × String) × δ)) :
    List ((String × String) × δ) :=
  l.foldl (fun acc p => acc.filter (fun q => decide (q.1 ≠ p.1)) ++ [p]) []

theorem fsWriteAll_go_of_nodup {δ : Type} (l : List ((String × String) × δ))
    (acc : List ((String × String) × δ))
    (hsep : ∀ q ∈ acc, ∀ p ∈ l, q.1 ≠ p.1) (hnd : (l.map Prod.fst).Nodup) :
    l.foldl (fun acc p => acc.filter (fun q => decide (q.1 ≠ p.1)) ++ [p]) acc
      = acc ++ l := by
  induction l generalizing acc with
  | nil => rw [List.foldl_nil, List.append_nil]
  | cons p t ih =>
    rw [List.foldl_cons]
    rw [List.map_cons, List.nodup_cons] at hnd
    have hfl : acc.filter (fun q => decide (q.1 ≠ p.1)) = acc :=
      List.filter_eq_self.mpr (fun q hq => by
        rw [decide_eq_true_iff]
        exact hsep q hq p (List.mem_cons_self _ _))
    rw [hfl]
    rw [ih (acc ++ [p]) ?hsep2 hnd.2]
    · rw [List.append_assoc]
      rfl
    case hsep2 =>
      intro q hq r hr
      rcases List.mem_append.mp hq with h1 | h1
      · exact hsep q h1 r (List.mem_cons_of_mem _ hr)
      · rw [List.mem_singleton.mp h1]
        intro hcontra
        exact hnd.1 (hcontra ▸ List.mem_map_of_mem Prod.fst hr)

theorem fsWriteAll_of_nodup {δ : Type} (l : List ((String × String) × δ))
    (hnd : (l.map Prod.fst).Nodup) : fsWriteAll l = l := by
  unfold fsWriteAll
  rw [fsWriteAll_go_of_nodup l [] (by simp) hnd]
  rfl

/-- `json_export` (\_\_main\_\_.py lines 151-171): one file per record,
`vulns/<repo_name>/<id>.json` holding `item.to_dict()` and
`revisions/<repo_name>/<commit>.json` holding `revision.to_dict()`;
later writes to an identical path overwrite. -/
def json_export (db : RecordDB) :
    List ((String × String) × ItemDict) × List ((String × String) × RevisionDict) :=
  (fsWriteAll (db.vulnerabilities.map
      (fun it => ((repo_url_to_name it.repo_url, it.id), it.to_dict))),
   fsWriteAll (db.revisions.map
      (fun r => ((repo_url_to_name r.repo_url, r.commit), r.to_dict))))

/-- `json_import` (\_\_main\_\_.py lines 174-195): starting from a fresh
empty database, parse every JSON file of both trees and insert the
records. -/
def json_import (vfiles : List ((String × String) × ItemDict))
    (rfiles : List ((String × String) × RevisionDict)) : RecordDB :=
  RecordDB.mk (vfiles.map (fun p => itemFromDict p.2))
    (rfiles.map (fun p => revisionFromDict p.2))

/-- `export → wipe → import`. -/
def json_roundtrip (db : RecordDB) : RecordDB :=
  json_import (json_export db).1 (json_export db).2

/-- C10 counterexample: a record whose `commits` list is not sorted does
not round-trip unchanged: `to_dict` sorts `cwes` and `commits` on
export, so the imported record differs from the pre-export one and the
tables are not set-equal. -/
theorem C10_counterexample_roundtrip_sorts_commits :
    json_roundtrip (RecordDB.mk [RepovulItem.mk "I" 1 1 "d" none none "R" [] ["b", "a"]] [])
      ≠ RecordDB.mk [RepovulItem.mk "I" 1 1 "d" none none "R" [] ["b", "a"]] []
    ∧ RepovulItem.mk "I" 1 1 "d" none none "R" [] ["b", "a"]
      ∈ (RecordDB.mk [RepovulItem.mk "I" 1 1 "d" none none "R" [] ["b", "a"]]
          []).vulnerabilities
    ∧ RepovulItem.mk "I" 1 1 "d" none none "R" [] ["b", "a"]
      ∉ (json_roundtrip (RecordDB.mk
          [RepovulItem.mk "I" 1 1 "d" none none "R" [] ["b", "a"]] [])).vulnerabilities := by
  refine ⟨by decide, by decide, by decide⟩

/-- C10 (amended): `export → wipe → import` yields the pre-export record
store provided file paths do not collide and every record's `cwes` and
`commits` are already sorted; in general each imported vulnerability
record equals the original with `cwes` and `commits` replaced by their
sorted versions, and revision records always round-trip unchanged. -/
theorem C10_export_import_roundtrip (db : RecordDB)
    (hvkeys : ((db.vulnerabilities.map
      (fun it => ((repo_url_to_name it.repo_url, it.id), it.to_dict))).map Prod.fst).Nodup)
    (hrkeys : ((db.revisions.map
      (fun r => ((repo_url_to_name r.repo_url, r.commit), r.to_dict))).map Prod.fst).Nodup)
    (hsorted : ∀ it ∈ db.vulnerabilities,
      sortStrings it.cwes = it.cwes ∧ sortStrings it.commits = it.commits) :
    json_roundtrip db = db := by
  unfold json_roundtrip json_import json_export
  dsimp only
  rw [fsWriteAll_of_nodup _ hvkeys, fsWriteAll_of_nodup _ hrkeys]
  rw [List.map_map, List.map_map]
  cases db with
  | mk vulns revs =>
    simp only
    congr 1
    · have : ∀ it ∈ vulns, ((fun p => itemFromDict p.2) ∘
          (fun it => ((repo_url_to_name it.repo_url, it.id), it.to_dict))) it = id it := by
        intro it hit
        obtain ⟨hc, hm⟩ := hsorted it hit
        show itemFromDict it.to_dict = it
        unfold itemFromDict RepovulItem.to_dict
        rw [hc, hm]
      rw [List.map_congr_left this, List.map_id]
    · have : ∀ r ∈ revs, ((fun p => revisionFromDict p.2) ∘
          (fun r => ((repo_url_to_name r.repo_url, r.commit), r.to_dict))) r = id r := by
        intro r hr
        show revisionFromDict r.to_dict = r
        rfl
      rw [List.map_congr_left this, List.map_id]

/-- C10 witness: a store whose item has sorted `cwes`/`commits` and
distinct file paths round-trips exactly. -/
theorem C10_export_import_roundtrip_witness :
    (((RecordDB.mk [RepovulItem.mk "I" 1 1 "d" none none "R" [] ["a", "b"]]
        [RepovulRevision.mk "a" "R" 5 [("Py", 7)] 7]).vulnerabilities.map
      (fun it => ((repo_url_to_name it.repo_url, it.id), it.to_dict))).map Prod.fst).Nodup
    ∧ json_roundtrip (RecordDB.mk [RepovulItem.mk "I" 1 1 "d" none none "R" [] ["a", "b"]]
        [RepovulRevision.mk "a" "R" 5 [("Py", 7)] 7])
      = RecordDB.mk [RepovulItem.mk "I" 1 1 "d" none none "R" [] ["a", "b"]]
        [RepovulRevision.mk "a" "R" 5 [("Py", 7)] 7] :=
  ⟨by decide,
    C10_export_import_roundtrip
      (RecordDB.mk [RepovulItem.mk "I" 1 1 "d" none none "R" [] ["a", "b"]]
        [RepovulRevision.mk "a" "R" 5 [("Py", 7)] 7])
      (by decide) (by decide) (by decide)⟩

/-! ### The commit read query (`__main__.py`, `get_by_commit` lines 50-84) -/

/-- The JSON text stored in the `commits` column for a list of commit
hashes, as `json.dumps` renders a list of strings (elements separated by
a comma and a space), middle part. -/
def jsonMid : List (List Char) → List Char
  | [] => []
  | [h] => '"' :: h ++ ['"']
  | h :: t => '"' :: h ++ '"' :: ',' :: ' ' :: jsonMid t

/-- Full JSON encoding of the commits column. -/
def jsonCommits (cs : List String) : List Char :=
  '[' :: jsonMid (cs.map String.data) ++ [']']

/-- The `RepovulItem.commits.contains(commit_hash)` sqlalchemy filter:
a substring test of the hash against the JSON-encoded commits column
(the source itself flags this as unclean, \_\_main\_\_.py lines 67-73). -/
def likeContains (cs : List String) (pat : String) : Bool :=
  decide (pat.data <:+: jsonCommits cs)

/-- Shallow embedding of `get_by_commit` (\_\_main\_\_.py lines 50-84):
reject inputs that are not 40 characters (`ValueError`), then keep the
records matching the substring test, optionally restricted to
`after <= published` and `published < before`. -/
def get_by_commit (db : List RepovulItem) (commit_hash : String)
    (after before : Option Int) : Except Unit (List RepovulItem) :=
  if commit_hash.length ≠ 40 then .error ()
  else .ok (db.filter (fun it =>
    likeContains it.commits commit_hash
    && (match after with | some a => decide (a ≤ it.published) | none => true)
    && (match before with | some b => decide (it.published < b) | none => true)))

/-- C6 counterexample: a 40-character input that stabs across two
JSON-encoded 40-hex commits (18 `a`s, then `", "`, then 18 `b`s) is a
substring of the column text without being a member of the commits
list, so `get_by_commit` returns the record — a false positive. -/
theorem C6_counterexample_substring_false_positive :
    ("aaaaaaaaaaaaaaaaaa\", \"bbbbbbbbbbbbbbbbbb" : String).length = 40
    ∧ get_by_commit
        [RepovulItem.mk "I" 1 1 "d" none none "R" []
          ["aaaaaaaaaaaaaaaaaaaaaaaaaaaaaaaaaaaaaaaa",
           "bbbbbbbbbbbbbbbbbbbbbbbbbbbbbbbbbbbbbbbb"]]
        "aaaaaaaaaaaaaaaaaa\", \"bbbbbbbbbbbbbbbbbb" none none
      = .ok [RepovulItem.mk "I" 1 1 "d" none none "R" []
          ["aaaaaaaaaaaaaaaaaaaaaaaaaaaaaaaaaaaaaaaa",
           "bbbbbbbbbbbbbbbbbbbbbbbbbbbbbbbbbbbbbbbb"]]
    ∧ ("aaaaaaaaaaaaaaaaaa\", \"bbbbbbbbbbbbbbbbbb" : String)
      ∉ ["aaaaaaaaaaaaaaaaaaaaaaaaaaaaaaaaaaaaaaaa",
         "bbbbbbbbbbbbbbbbbbbbbbbbbbbbbbbbbbbbbbbb"] := by
  refine ⟨by decide, by decide, by decide⟩

/-- Hexadecimal digit (lower case, as git commit hashes). -/
def hexChar (c : Char) : Bool :=
  decide (48 ≤ c.toNat ∧ c.toNat ≤ 57) || decide (97 ≤ c.toNat ∧ c.toNat ≤ 102)

theorem hexChar_ne {c d : Char} (hc : hexChar c = true) (hd : hexChar d = false) :
    c ≠ d := by
  intro he
  subst he
  rw [hc] at hd
  exact Bool.noConfusion hd

theorem hex_no_quote {pat : List Char} (hq : ∀ c ∈ pat, hexChar c = true) : '"' ∉ pat :=
  fun hmem => absurd (hq _ hmem) (by decide)

theorem quote_split {pat l₁ l₂ : List Char} (hq : '"' ∉ pat)
    (h : pat <:+: l₁ ++ '"' :: l₂) : pat <:+: l₁ ∨ pat <:+: l₂ := by
  obtain ⟨u, v, huv⟩ := h
  rw [List.append_assoc] at huv
  rcases List.append_eq_append_iff.mp huv with ⟨a', ha1, ha2⟩ | ⟨c', hc1, hc2⟩
  · rcases List.append_eq_append_iff.mp ha2 with ⟨b', hb1, hb2⟩ | ⟨c', hc1, hc2⟩
    · left
      refine ⟨u, b', ?_⟩
      rw [ha1, hb1, List.append_assoc]
    · cases c' with
      | nil =>
        left
        refine ⟨u, [], ?_⟩
        rw [List.append_nil] at hc1 ⊢
        rw [ha1, ← hc1]
      | cons c0 c1 =>
        exfalso
        rw [List.cons_append] at hc2
        injection hc2 with hc2a hc2b
        apply hq
        rw [hc1, ← hc2a]
        exact List.mem_append_right a' (List.mem_cons_self _ _)
  · cases c' with
    | nil =>
      rw [List.nil_append] at hc2
      cases pat with
      | nil => exact Or.inl List.nil_infix
      | cons p0 pt =>
        exfalso
        rw [List.cons_append] at hc2
        injection hc2 with hc2a hc2b
        exact hq (hc2a ▸ List.mem_cons_self _ _)
    | cons c0 c1 =>
      right
      rw [List.cons_append] at hc2
      injection hc2 with hc2a hc2b
      exact ⟨c1, v, by rw [hc2b, ← List.append_assoc]⟩

theorem cons_peel {pat : List Char} {c : Char} {l : List Char} (hne : pat ≠ [])
    (hc : c ∉ pat) (h : pat <:+: c :: l) : pat <:+: l := by
  rcases List.infix_cons_iff.mp h with h1 | h1
  · cases pat with
    | nil => exact absurd rfl hne
    | cons p0 pt =>
      exfalso
      obtain ⟨hp, -⟩ := List.cons_prefix_cons.mp h1
      exact hc (hp ▸ List.mem_cons_self _ _)
  · exact h1

theorem infix_of_tail {pre l m : List Char} (h : l <:+: m) : l <:+: pre ++ m := by
  obtain ⟨s, t, hst⟩ := h
  refine ⟨pre ++ s, t, ?_⟩
  rw [← hst]
  simp [List.append_assoc]

theorem peel_block {pat hd R : List Char} (hlen : pat.length = 40)
    (hnq : '"' ∉ pat) (hlhd : hd.length = 40)
    (h : pat <:+: '"' :: (hd ++ '"' :: R)) : pat = hd ∨ pat <:+: R := by
  rcases @quote_split pat [] (hd ++ '"' :: R) hnq h with h1 | h1
  · have := List.IsInfix.length_le h1
    rw [hlen] at this
    exact absurd this (by decide)
  · rcases quote_split hnq h1 with h2 | h2
    · exact Or.inl (List.Sublist.eq_of_length (List.IsInfix.sublist h2)
        (by rw [hlen, hlhd]))
    · exact Or.inr h2

theorem mem_of_infix_jsonMid {pat : List Char} {cs : List (List Char)}
    (hlen : pat.length = 40) (hhex : ∀ c ∈ pat, hexChar c = true)
    (hcs : ∀ h ∈ cs, h.length = 40 ∧ ∀ c ∈ h, hexChar c = true) :
    pat <:+: jsonMid cs ++ [']'] → pat ∈ cs := by
  have hnq : '"' ∉ pat := hex_no_quote hhex
  have hne : pat ≠ [] := by
    intro hnil
    rw [hnil] at hlen
    exact absurd hlen (by decide)
  induction cs with
  | nil =>
    intro h
    have := List.IsInfix.length_le h
    rw [hlen] at this
    exact absurd this (by decide)
  | cons hd t ih =>
    intro h
    cases t with
    | nil =>
      have hshape : jsonMid [hd] ++ [']'] = '"' :: (hd ++ '"' :: [']']) := by
        simp [jsonMid]
      rw [hshape] at h
      rcases peel_block hlen hnq (hcs hd (List.mem_cons_self _ _)).1 h with h1 | h1
      · rw [h1]
        exact List.mem_cons_self _ _
      · have := List.IsInfix.length_le h1
        rw [hlen] at this
        exact absurd this (by decide)
    | cons h2 t2 =>
      have hshape : jsonMid (hd :: h2 :: t2) ++ [']']
          = '"' :: (hd ++ '"' :: (',' :: ' ' :: (jsonMid (h2 :: t2) ++ [']']))) := by
        simp [jsonMid]
      rw [hshape] at h
      rcases peel_block hlen hnq (hcs hd (List.mem_cons_self _ _)).1 h with h1 | h1
      · rw [h1]
        exact List.mem_cons_self _ _
      · have hp1 : pat <:+: ' ' :: (jsonMid (h2 :: t2) ++ [']']) :=
          cons_peel hne (fun hmem => absurd (hhex _ hmem) (by decide)) h1
        have hp2 : pat <:+: jsonMid (h2 :: t2) ++ [']'] :=
          cons_peel hne (fun hmem => absurd (hhex _ hmem) (by decide)) hp1
        exact List.mem_cons_of_mem _
          (ih (fun x hx => hcs x (List.mem_cons_of_mem _ hx)) hp2)

theorem infix_jsonMid_of_mem {h : List Char} {cs : List (List Char)} (hmem : h ∈ cs) :
    h <:+: jsonMid cs := by
  induction cs with
  | nil => simp at hmem
  | cons hd t ih =>
    rcases List.mem_cons.mp hmem with h1 | h1
    · subst h1
      cases t with
      | nil => exact ⟨['"'], ['"'], by simp [jsonMid]⟩
      | cons h2 t2 =>
        refine ⟨['"'], '"' :: ',' :: ' ' :: jsonMid (h2 :: t2), ?_⟩
        simp [jsonMid]
    · cases t with
      | nil => simp at h1
      | cons h2 t2 =>
        have := ih h1
        rw [show jsonMid (hd :: h2 :: t2) = ('"' :: hd ++ ['"', ',', ' '])
            ++ jsonMid (h2 :: t2) from by simp [jsonMid]]
        exact infix_of_tail this

theorem likeContains_iff_mem {cs : List String} {pat : String}
    (hlen : pat.data.length = 40) (hhex : ∀ c ∈ pat.data, hexChar c = true)
    (hcs : ∀ cm ∈ cs, cm.data.length = 40 ∧ ∀ c ∈ cm.data, hexChar c = true) :
    likeContains cs pat = true ↔ pat ∈ cs := by
  unfold likeContains
  rw [decide_eq_true_iff]
  constructor
  · intro h
    unfold jsonCommits at h
    have hne : pat.data ≠ [] := by
      intro hnil
      rw [hnil] at hlen
      exact absurd hlen (by decide)
    have h1 : pat.data <:+: jsonMid (cs.map String.data) ++ [']'] :=
      cons_peel hne (fun hmem => absurd (hhex _ hmem) (by decide)) h
    have h2 := mem_of_infix_jsonMid hlen hhex (fun x hx => by
      obtain ⟨cm, hcm, hcmx⟩ := List.mem_map.mp hx
      rw [← hcmx]
      exact hcs cm hcm) h1
    obtain ⟨cm, hcm, hcmx⟩ := List.mem_map.mp h2
    have : cm = pat := String.ext hcmx
    rw [← this]
    exact hcm
  · intro h
    have h1 : pat.data <:+: jsonMid (cs.map String.data) :=
      infix_jsonMid_of_mem (List.mem_map_of_mem String.data h)
    unfold jsonCommits
    obtain ⟨s, t, hst⟩ := h1
    refine ⟨'[' :: s, t ++ [']'], ?_⟩
    rw [← hst]
    simp [List.append_assoc]

/-- C6 (amended): for every input of exactly 40 hexadecimal characters
(any input of a length other than 40 raises `ValueError`), and any store
whose records hold 40-hex commit hashes, `get_by_commit` returns exactly
those vulnerability records whose `commits` list contains that hash —
the substring test over the JSON-encoded list cannot false-positive on
such inputs — further restricted, when the optional bounds are given, to
records with `after <= published` and `published < before`.  (For
general 40-character inputs the claim is false: see the quote-comma
counterexample.) -/
theorem C6_get_by_commit_exact_for_hex (db : List RepovulItem) (commit_hash : String)
    (after before : Option Int)
    (hlen : commit_hash.length = 40)
    (hhex : ∀ c ∈ commit_hash.data, hexChar c = true)
    (hdb : ∀ it ∈ db, ∀ cm ∈ it.commits, cm.length = 40 ∧ ∀ c ∈ cm.data, hexChar c = true) :
    (get_by_commit db commit_hash after before = .ok (db.filter (fun it =>
      decide (commit_hash ∈ it.commits)
      && (match after with | some a => decide (a ≤ it.published) | none => true)
      && (match before with | some b => decide (it.published < b) | none => true))))
    ∧ (∀ (s : String), s.length ≠ 40 → ∀ (db2 : List RepovulItem) (a b : Option Int),
        get_by_commit db2 s a b = .error ()) := by
  constructor
  · unfold get_by_commit
    rw [if_neg (fun hne => hne hlen)]
    congr 1
    apply List.filter_congr
    intro it hit
    have hlk : likeContains it.commits commit_hash = decide (commit_hash ∈ it.commits) := by
      have hiff := @likeContains_iff_mem it.commits commit_hash hlen hhex
        (fun cm hcm => (hdb it hit cm hcm))
      by_cases hm : commit_hash ∈ it.commits
      · rw [hiff.mpr hm, decide_eq_true_iff.mpr hm]
      · rw [Bool.eq_false_iff.mpr (fun htrue => hm (hiff.mp htrue))]
        rw [decide_eq_false_iff_not.mpr hm]
    rw [hlk]
  · intro s hs db2 a b
    unfold get_by_commit
    rw [if_pos hs]

/-- C6 witness: querying a 40-hex hash returns exactly the record holding
it, and a 39-character input is rejected. -/
theorem C6_get_by_commit_exact_for_hex_witness :
    (get_by_commit
        [RepovulItem.mk "I" 1 1 "d" none none "R" []
          ["aaaaaaaaaaaaaaaaaaaaaaaaaaaaaaaaaaaaaaaa"]]
        "aaaaaaaaaaaaaaaaaaaaaaaaaaaaaaaaaaaaaaaa" none none
      = .ok ([RepovulItem.mk "I" 1 1 "d" none none "R" []
          ["aaaaaaaaaaaaaaaaaaaaaaaaaaaaaaaaaaaaaaaa"]].filter (fun it =>
        decide ("aaaaaaaaaaaaaaaaaaaaaaaaaaaaaaaaaaaaaaaa" ∈ it.commits)
        && (match (none : Option Int) with
            | some a => decide (a ≤ it.published) | none => true)
        && (match (none : Option Int) with
            | some b => decide (it.published < b) | none => true))))
    ∧ (∀ (s : String), s.length ≠ 40 → ∀ (db2 : List RepovulItem) (a b : Option Int),
        get_by_commit db2 s a b = .error ()) :=
  C6_get_by_commit_exact_for_hex
    [RepovulItem.mk "I" 1 1 "d" none none "R" []
      ["aaaaaaaaaaaaaaaaaaaaaaaaaaaaaaaaaaaaaaaa"]]
    "aaaaaaaaaaaaaaaaaaaaaaaaaaaaaaaaaaaaaaaa" none none
    (by decide) (by decide) (by decide)
